import Mathlib

/-!
# TDB2: record codec, slot codec and the canned-layout builder

A shallow embedding of the header codec of `ccan/tdb2/private.h`, of the
layout builder of `ccan/tdb2/test/layout.c` and of the transaction agent of
`ccan/tdb/test/external-transaction.c`.

Machine integers are natural numbers; every operation that can leave the range
of its C type is reduced modulo the width of that type (`shl64`, `sub64`, ...).
Code that can stop (`assert`, `abort`) or that has no defined result (a shift
by at least the width of the shifted type) returns `Except Fault _`.
-/

namespace Tdb2

/-! ## Machine arithmetic -/

/-- Left shift of a `uint64_t` (shift count below 64). -/
def shl64 (a n : Nat) : Nat := (a <<< n) % 2 ^ 64

/-- Subtraction of two `uint64_t`, wrapping. -/
def sub64 (a b : Nat) : Nat := (a + 2 ^ 64 - b) % 2 ^ 64

/-- Addition of two `uint64_t`, wrapping. -/
def add64 (a b : Nat) : Nat := (a + b) % 2 ^ 64

/-- Bitwise complement of a `uint64_t`. -/
def not64 (a : Nat) : Nat := 2 ^ 64 - 1 - a

/-- Left shift of a 32-bit `unsigned` (shift count below 32). -/
def shl32 (a n : Nat) : Nat := (a <<< n) % 2 ^ 32

/-- Subtraction of two 32-bit `unsigned`, wrapping. -/
def sub32 (a b : Nat) : Nat := (a + 2 ^ 32 - b) % 2 ^ 32

/-- Ways in which the C code stops without a result. -/
inductive Fault where
  /-- An `assert` did not hold. -/
  | assertion
  /-- The call `abort()` was reached. -/
  | aborted
  /-- A shift count was not below the width of the shifted type. -/
  | undefined
  /-- The process was ended by `err` or `errx`. -/
  | exited
  deriving DecidableEq

/-! ## Constants of `private.h` -/

def TDB_MAGIC : Nat := 0x1999
def TDB_FREE_MAGIC : Nat := shl64 (not64 TDB_MAGIC) 6
def TDB_COALESCING_MAGIC : Nat := shl64 0xBAD1DEA2FEED 6

def TDB_TOPLEVEL_HASH_BITS : Nat := 10
def TDB_SUBLEVEL_HASH_BITS : Nat := 6
def TDB_HASH_GROUP_BITS : Nat := 3

def TDB_OFF_HASH_GROUP_MASK : Nat := sub64 (shl64 1 TDB_HASH_GROUP_BITS) 1
def TDB_OFF_UPPER_STEAL : Nat := 8
def TDB_OFF_UPPER_STEAL_EXTRA : Nat := 7
def TDB_OFF_UPPER_STEAL_TRUNCBIT : Nat := 1
def TDB_OFF_HASH_TRUNCATED_BIT : Nat := 56
def TDB_OFF_HASH_EXTRA_BIT : Nat := 57
def TDB_OFF_MASK : Nat :=
  sub64 (sub64 (shl64 1 (64 - TDB_OFF_UPPER_STEAL)) 1) TDB_OFF_HASH_GROUP_MASK

/-- The C `sizeof(tdb_off_t)`. -/
def sizeof_tdb_off_t : Nat := 8

/-- The C `sizeof(struct tdb_used_record)`: two 64-bit words. -/
def sizeof_tdb_used_record : Nat := 8 + 8

/-- The C `sizeof(struct tdb_free_record)`: four 64-bit words. -/
def sizeof_tdb_free_record : Nat := 8 + 8 + 8 + 8

/-- The C `offsetof(struct tdb_header, hashtable)`: `magic_food[64]`, `version`,
`hash_test`, `hash_seed` and `reserved[28]` come first. -/
def offsetof_tdb_header_hashtable : Nat := 64 + 8 + 8 + 8 + 28 * sizeof_tdb_off_t

/-- The C `sizeof(struct tdb_header)`. -/
def sizeof_tdb_header : Nat :=
  offsetof_tdb_header_hashtable + shl64 1 TDB_TOPLEVEL_HASH_BITS * sizeof_tdb_off_t

/-! ## `bswap_64` -/

/-- The fallback `bswap_64` of `private.h`, term by term. -/
def bswap_64 (x : Nat) : Nat :=
  shl64 (x &&& 0x000000FF) 56
    ||| shl64 (x &&& 0x0000FF00) 48
    ||| shl64 (x &&& 0x00FF0000) 40
    ||| shl64 (x &&& 0xFF000000) 32
    ||| ((x >>> 8) &&& 0xFF000000)
    ||| ((x >>> 16) &&& 0x00FF0000)
    ||| ((x >>> 24) &&& 0x0000FF00)
    ||| ((x >>> 32) &&& 0x000000FF)

/-- Byte `i` of a word (byte 0 is the least significant). -/
def byte_of (x i : Nat) : Nat := (x >>> (8 * i)) % 256

/-! ## Used and free record headers -/

structure tdb_used_record where
  magic_and_meta : Nat
  key_and_data_len : Nat

structure tdb_free_record where
  magic_and_meta : Nat
  data_len : Nat
  next : Nat
  prev : Nat

/-- The function returns `unsigned`, hence the final reduction. -/
def rec_key_bits (r : tdb_used_record) : Nat :=
  (((r.magic_and_meta >>> 43) &&& ((1 <<< 5) - 1)) * 2) % 2 ^ 32

def rec_key_length (r : tdb_used_record) : Nat :=
  r.key_and_data_len &&& sub64 (shl64 1 (rec_key_bits r)) 1

def rec_data_length (r : tdb_used_record) : Nat :=
  r.key_and_data_len >>> rec_key_bits r

def rec_extra_padding (r : tdb_used_record) : Nat :=
  (r.magic_and_meta >>> 11) &&& 0xFFFFFFFF

def rec_zone_bits (r : tdb_used_record) : Nat :=
  (r.magic_and_meta &&& ((1 <<< 6) - 1)) % 2 ^ 32

def rec_hash (r : tdb_used_record) : Nat :=
  ((r.magic_and_meta >>> 6) &&& ((1 <<< 5) - 1)) % 2 ^ 32

/-- The function returns `uint16_t`, hence the final reduction. -/
def rec_magic (r : tdb_used_record) : Nat :=
  (r.magic_and_meta >>> 48) % 2 ^ 16

def frec_zone_bits (f : tdb_free_record) : Nat :=
  (f.magic_and_meta &&& ((1 <<< 6) - 1)) % 2 ^ 32

def frec_magic (f : tdb_free_record) : Nat :=
  f.magic_and_meta &&& not64 (sub64 (shl64 1 6) 1)

/-! ## Memory and the database handle -/

/-- The mapped file: the byte stored at each offset. -/
abbrev Mem := Nat → Nat

/-- The fields of `struct tdb_context` that the layout builder uses. The hash
function `khash` takes the key bytes and the seed. -/
structure tdb_context where
  map : Mem
  map_size : Nat
  flist_off : Nat
  khash : List Nat → Nat → Nat
  hash_seed : Nat

/-- Modelled from the spec: `tdb_read_off` lives in io.c, which is not part of
the sources at hand; private.h declares it as "Convenience routine to get an
offset". It reads the eight bytes at `off` as one 64-bit word in host order
(least significant byte first; the builder does not support `TDB_CONVERT`). -/
def tdb_read_off (m : Mem) (off : Nat) : Nat :=
  m off % 256 + (m (off + 1) % 256) * 2 ^ 8 + (m (off + 2) % 256) * 2 ^ 16
    + (m (off + 3) % 256) * 2 ^ 24 + (m (off + 4) % 256) * 2 ^ 32
    + (m (off + 5) % 256) * 2 ^ 40 + (m (off + 6) % 256) * 2 ^ 48
    + (m (off + 7) % 256) * 2 ^ 56

/-- Modelled from the spec: `tdb_write_off` lives in io.c, which is not part of
the sources at hand; private.h declares it as "Write an offset at an offset".
It stores the 64-bit word `val` in the eight bytes at `off`, least significant
byte first, and touches no other byte. -/
def tdb_write_off (m : Mem) (off val : Nat) : Mem :=
  fun a => if off ≤ a ∧ a < off + 8 then (val >>> (8 * (a - off))) % 256 else m a

/-- Modelled from the spec: `tdb_hash` lives in hash.c, which is not part of the
sources at hand; private.h declares it as "Hash random memory", returning
`uint64_t`. It applies the handle's hash function to the bytes and the seed. -/
def tdb_hash (tdb : tdb_context) (key : List Nat) : Nat :=
  tdb.khash key tdb.hash_seed % 2 ^ 64

/-! ## `layout.c`: hash table helpers -/

def hbucket_off (group_start ingroup : Nat) : Nat :=
  add64 group_start ((ingroup % (1 <<< TDB_HASH_GROUP_BITS)) * sizeof_tdb_off_t)

/-- Get bits from a value. The assertion admits `num ≤ 32`; the shifts
`val >> start` (64-bit) and `1U << num` (32-bit) have a defined result only
for `start < 64` and `num < 32`. The result type is `uint32_t`. -/
def bits (val start num : Nat) : Except Fault Nat :=
  if ¬ num ≤ 32 then .error .assertion
  else if 64 ≤ start ∨ 32 ≤ num then .error .undefined
  else .ok (((val >>> start) &&& sub32 (shl32 1 num) 1) % 2 ^ 32)

/-- The C function updates `*used` in place; here the new value of `*used` is
returned next to the result. Both `*used += num` and `64 - *used` are
computed on 32-bit `unsigned`. -/
def use_bits (h num used : Nat) : Except Fault (Nat × Nat) :=
  let used1 := (used + num) % 2 ^ 32
  match bits h (sub32 64 used1) num with
  | .ok r => .ok (r, used1)
  | .error e => .error e

def encode_offset (new_off bucket h : Nat) : Except Fault Nat :=
  match bits h (64 - TDB_OFF_UPPER_STEAL_EXTRA) TDB_OFF_UPPER_STEAL_EXTRA with
  | .ok b => .ok (bucket ||| new_off ||| shl64 b TDB_OFF_HASH_EXTRA_BIT)
  | .error e => .error e

/-- The `for` loop of `add_to_hashtable`: `n` iterations remain and the loop
counter is `i` (the function starts it with `n = 8`, `i = 0`). Leaving the
loop reaches `abort()`. -/
def add_to_hashtable_loop (m : Mem) (eoff h group_start in_group : Nat) :
    Nat → Nat → Except Fault Mem
  | 0, _ => .error .aborted
  | n + 1, i =>
    let bucket := ((in_group + i) % 2 ^ 32) % (1 <<< TDB_HASH_GROUP_BITS)
    let b_off := hbucket_off group_start bucket
    if tdb_read_off m b_off = 0 then
      match encode_offset eoff bucket h with
      | .ok v => .ok (tdb_write_off m b_off v)
      | .error e => .error e
    else add_to_hashtable_loop m eoff h group_start in_group n (i + 1)

/-- The start of the group of a hash value, as `add_to_hashtable` computes it
from the group number. -/
def add_to_hashtable_group_start (group : Nat) : Nat :=
  add64 offsetof_tdb_header_hashtable
    ((group * shl64 sizeof_tdb_off_t TDB_HASH_GROUP_BITS) % 2 ^ 64)

def add_to_hashtable (tdb : tdb_context) (eoff : Nat) (key : List Nat) :
    Except Fault tdb_context :=
  let h := tdb_hash tdb key
  match use_bits h (TDB_TOPLEVEL_HASH_BITS - TDB_HASH_GROUP_BITS) 0 with
  | .error e => .error e
  | .ok (group, used) =>
    match use_bits h TDB_HASH_GROUP_BITS used with
    | .error e => .error e
    | .ok (in_group, _) =>
      match add_to_hashtable_loop tdb.map eoff h (add_to_hashtable_group_start group) in_group
          (1 <<< TDB_HASH_GROUP_BITS) 0 with
      | .ok m => .ok { tdb with map := m }
      | .error e => .error e

/-! ## `layout.c`: elements and `tdb_layout_get` -/

/-- The elements of a layout. layout.h, which declares `union tdb_layout_elem`,
is not part of the sources at hand; the constructors carry the fields that
layout.c reads (`free.len`, `used.key`, `used.data`, `used.extra`,
`hashtable.extra`). Keys and values are lists of bytes, `dsize` is their
length. The field `base.off`, assigned by the first pass, is kept in a list
of its own. -/
inductive tdb_layout_elem where
  | FREELIST
  | FREE (len : Nat)
  | DATA (key data : List Nat) (extra : Nat)
  | HASHTABLE (extra : Nat)

def free_record_len (len : Nat) : Nat := add64 sizeof_tdb_used_record len

def data_record_len (key data : List Nat) (extra : Nat) : Except Fault Nat :=
  let len := add64 (add64 (add64 sizeof_tdb_used_record key.length) data.length) extra
  if len ≥ sizeof_tdb_free_record then .ok len else .error .assertion

def hashtable_len (extra : Nat) : Nat :=
  add64 (add64 sizeof_tdb_used_record (shl64 sizeof_tdb_off_t TDB_SUBLEVEL_HASH_BITS)) extra

/-- The declaration of `struct tdb_freelist` is not part of the sources at
hand: its size is a parameter. -/
def freelist_len (sizeof_tdb_freelist : Nat) : Nat := sizeof_tdb_freelist

/-- The body of the first loop of `tdb_layout_get` for one element at offset
`off`: the length of the element and the new value of `flist_off`. -/
def tdb_layout_get_first_elem (sizeof_tdb_freelist : Nat) (e : tdb_layout_elem)
    (off flist_off : Nat) : Except Fault (Nat × Nat) :=
  match e with
  | .FREELIST =>
    if flist_off = 0 then .ok (freelist_len sizeof_tdb_freelist, off)
    else .error .assertion
  | .FREE len => .ok (free_record_len len, flist_off)
  | .DATA key data extra =>
    match data_record_len key data extra with
    | .ok len => .ok (len, flist_off)
    | .error e => .error e
  | .HASHTABLE extra => .ok (hashtable_len extra, flist_off)

/-- The first loop of `tdb_layout_get` from the element list on, started at
`off` and `flist_off`: the offsets `base.off` given to the elements, the final
`off` and the final `flist_off`. -/
def tdb_layout_get_first_loop (sizeof_tdb_freelist : Nat) :
    List tdb_layout_elem → Nat → Nat → Except Fault (List Nat × Nat × Nat)
  | [], off, flist_off => .ok ([], off, flist_off)
  | e :: es, off, flist_off =>
    match tdb_layout_get_first_elem sizeof_tdb_freelist e off flist_off with
    | .error x => .error x
    | .ok (len, flist_off1) =>
      match tdb_layout_get_first_loop sizeof_tdb_freelist es (add64 off len) flist_off1 with
      | .error x => .error x
      | .ok (offs, off1, flist_off2) => .ok (off :: offs, off1, flist_off2)

/-- The first pass of `tdb_layout_get` with the assertion that follows it:
the offsets of the elements, the size of the file and the offset of the free
list. -/
def tdb_layout_get_first_pass (sizeof_tdb_freelist : Nat) (layout : List tdb_layout_elem) :
    Except Fault (List Nat × Nat × Nat) :=
  match tdb_layout_get_first_loop sizeof_tdb_freelist layout sizeof_tdb_header 0 with
  | .error x => .error x
  | .ok (offs, off, flist_off) =>
    if flist_off ≠ 0 then .ok (offs, off, flist_off) else .error .assertion

/-- Modelled from the spec: `add_free_record` lives in free.c, which is not
part of the sources at hand; private.h declares it as "Put this record in a
free list". The spec bounds every record from below by the header of a free
record ("Minimum record size is bounded below by this header's size — no
allocation can be smaller"), and private.h says of `TDB_MIN_DATA_LEN` "We have
to be able to fit a free record here". So the function stops, by an
assertion, on an extent that is shorter than `struct tdb_free_record`, and
otherwise enters the extent into a free list; how the lists are linked is not
fixed here: `link` is a parameter. -/
def add_free_record (link : tdb_context → Nat → Nat → tdb_context) (tdb : tdb_context)
    (off len_with_header : Nat) : Except Fault tdb_context :=
  if len_with_header ≥ sizeof_tdb_free_record then .ok (link tdb off len_with_header)
  else .error .assertion

/-- The result code of `add_free_record` is not looked at; a stop inside it
ends the run. -/
def add_to_freetable (link : tdb_context → Nat → Nat → tdb_context)
    (tdb : tdb_context) (eoff elen : Nat) : Except Fault tdb_context :=
  add_free_record link tdb eoff (add64 sizeof_tdb_used_record elen)

/-- The last loop of `tdb_layout_get` ("Now fill the free and hash tables"),
over the elements paired with their offsets. -/
def tdb_layout_get_fill (link : tdb_context → Nat → Nat → tdb_context) :
    List (tdb_layout_elem × Nat) → tdb_context → Except Fault tdb_context
  | [], tdb => .ok tdb
  | (e, off) :: es, tdb =>
    match e with
    | .FREE len =>
      match add_to_freetable link tdb off len with
      | .ok tdb1 => tdb_layout_get_fill link es tdb1
      | .error x => .error x
    | .DATA key _ _ =>
      match add_to_hashtable tdb off key with
      | .ok tdb1 => tdb_layout_get_fill link es tdb1
      | .error x => .error x
    | _ => tdb_layout_get_fill link es tdb

/-- A handle over a file of zero bytes, in which every hash slot is empty,
with the given hash function; the inputs of the examples are built on it. -/
def blank_tdb (khash : List Nat → Nat → Nat) : tdb_context :=
  { map := fun _ => 0, map_size := 0, flist_off := 0, khash := khash, hash_seed := 0 }

/-- A handle over a file with the given bytes and the given hash function. -/
def tdb_of_map (m : Mem) (khash : List Nat → Nat → Nat) : tdb_context :=
  { map := m, map_size := 0, flist_off := 0, khash := khash, hash_seed := 0 }

/-- The bytes of a file in which all 8 slots of group 0 of the top-level table
(the bytes from 312 up to 376) are taken: every byte of them is 1. -/
def group0_full : Mem := fun a => if 312 ≤ a ∧ a < 376 then 1 else 0

/-- The bytes of a file in which the slots of group 0 are taken except the one
of bucket 2 (the bytes from 328 up to 336), which is empty. -/
def group0_but_bucket2 : Mem :=
  fun a => if 312 ≤ a ∧ a < 376 ∧ ¬ (328 ≤ a ∧ a < 336) then 1 else 0

/-! ## Further constants of `private.h` -/

def TDB_OPEN_LOCK : Nat := 0
def TDB_TRANSACTION_LOCK : Nat := 1
def TDB_EXPANSION_LOCK : Nat := 2
def TDB_HASH_LOCK_START : Nat := 3
def TDB_HASH_LOCK_RANGE_BITS : Nat := 30

/-- The shift is done on `int`, in which `1 << 30` fits. -/
def TDB_HASH_LOCK_RANGE : Nat := 1 <<< TDB_HASH_LOCK_RANGE_BITS

/-- The field `off` of `struct tdb_lock_type` is a `uint32_t`: the values it holds. -/
def tdb_lock_type_off_range : Nat := 2 ^ 32

/-- The number of entries of the array `levels` of `struct traverse_info`. -/
def traverse_info_levels : Nat := 64 / TDB_SUBLEVEL_HASH_BITS

/-- The C `sizeof` of the field `magic_food` of `struct tdb_header`. -/
def sizeof_tdb_header_magic_food : Nat := 64

/-- The C `offsetof(struct tdb_header, version)`: the field follows `magic_food`. -/
def offsetof_tdb_header_version : Nat := sizeof_tdb_header_magic_food

/-- The C `offsetof(struct tdb_header, hash_test)`. -/
def offsetof_tdb_header_hash_test : Nat := offsetof_tdb_header_version + 8

/-- The C `offsetof(struct tdb_header, hash_seed)`. -/
def offsetof_tdb_header_hash_seed : Nat := offsetof_tdb_header_hash_test + 8

/-- The C `offsetof(struct tdb_header, reserved)`. -/
def offsetof_tdb_header_reserved : Nat := offsetof_tdb_header_hash_seed + 8

/-- The number of entries of the array `reserved` of `struct tdb_header`. -/
def tdb_header_reserved_entries : Nat := 28

/-- The number of entries of the array `hashtable` of `struct tdb_header`. -/
def tdb_header_hashtable_entries : Nat := shl64 1 TDB_TOPLEVEL_HASH_BITS

/-! ## `layout.c`: writing a used record -/

/-- The length that the first loop of `tdb_layout_get` computes for an element
(`freelist_len`, `free_record_len`, `data_record_len` or `hashtable_len` by
type), whether or not the assertion of `data_record_len` holds. -/
def tdb_layout_elem_len (sizeof_tdb_freelist : Nat) : tdb_layout_elem → Nat
  | .FREELIST => freelist_len sizeof_tdb_freelist
  | .FREE len => free_record_len len
  | .DATA key data extra =>
    add64 (add64 (add64 sizeof_tdb_used_record key.length) data.length) extra
  | .HASHTABLE extra => hashtable_len extra

/-- Whether an element is of type `FREELIST`. -/
def tdb_layout_elem_is_freelist : tdb_layout_elem → Bool
  | .FREELIST => true
  | _ => false

/-- The C library `memcpy(dst, src, n)` with `n` the length of `src`: the bytes
of `src` are stored from `dst` on and no other byte changes. -/
def memcpy (m : Mem) (dst : Nat) (src : List Nat) : Mem :=
  fun a => if dst ≤ a ∧ a < dst + src.length then src.getD (a - dst) 0 else m a

/-- Modelled from the spec: `set_header` lives in free.c, which is not part of
the sources at hand; private.h declares it as "Set up header for a used
record", filling the record that `rec` points to. It stores the two 64-bit
words of the header at `rec` and `rec + 8`, in host order, and touches no
other byte. How the two words are packed from the key length, the data
length, the actual length and the hash is not fixed here: `pack` is a
parameter. The result code is not looked at by the callers in layout.c. -/
def set_header (pack : Nat → Nat → Nat → Nat → tdb_used_record) (m : Mem)
    (rec keylen datalen actuallen hash : Nat) : Mem :=
  tdb_write_off
    (tdb_write_off m rec (pack keylen datalen actuallen hash).magic_and_meta)
    (rec + 8) (pack keylen datalen actuallen hash).key_and_data_len

/-- The record is written at `off`, the place of `mem + e->base.off` in the
file; `u + 1` is 16 bytes further. The three lengths are added on 64 bits. -/
def set_data_record (pack : Nat → Nat → Nat → Nat → tdb_used_record)
    (tdb : tdb_context) (off : Nat) (key data : List Nat) (extra : Nat) : tdb_context :=
  let m1 := set_header pack tdb.map off key.length data.length
    (add64 (add64 key.length data.length) extra) (tdb_hash tdb key)
  let m2 := memcpy m1 (off + sizeof_tdb_used_record) key
  { tdb with map := (memcpy m2 (off + sizeof_tdb_used_record + key.length) data) }

/-! ## `external-transaction.c` -/

/-- The function `do_transaction`. The calls into the database (`tdb_open`,
`tdb_transaction_start`, `tdb_store`, `tdb_transaction_commit`) are not part
of the sources at hand: whether each one succeeds is a parameter, looked at
only if the call is reached, and `alarmed` is the value of the flag of that
name when it is read. -/
def do_transaction (open_ok start_ok store_ok commit_ok : Bool) (alarmed : Int) : Int :=
  if !open_ok then -1
  else if !start_ok then (if alarmed ≠ 0 then 0 else -3)
  else if !store_ok then -2
  else if commit_ok then 1
  else (if alarmed ≠ 0 then 0 else -3)

/-- The function `external_agent_transaction`. Whether the `write` to the agent
and the `read` from it transfer the whole message is a parameter, and `res` is
the `int` read from the agent; `err` and `errx` end the process. The result
type is `bool`: the `int` is converted on return. -/
def external_agent_transaction (write_ok read_ok : Bool) (res : Int) : Except Fault Bool :=
  if !write_ok then .error .exited
  else if !read_ok then .error .exited
  else if res > 1 then .error .exited
  else .ok (decide (res ≠ 0))

/-! ## `layout.c`: the writes of `add_to_hashtable` -/

/-- The `for` loop of `add_to_hashtable` once more, now returning the list of
the calls `tdb_write_off(tdb, b_off, val)` made until the loop stops, as
pairs `(b_off, val)`, next to the way it stops: `n` iterations remain and the
loop counter is `i`. -/
def add_to_hashtable_loop_writes (m : Mem) (eoff h group_start in_group : Nat) :
    Nat → Nat → List (Nat × Nat) × Except Fault Unit
  | 0, _ => ([], .error .aborted)
  | n + 1, i =>
    let bucket := ((in_group + i) % 2 ^ 32) % (1 <<< TDB_HASH_GROUP_BITS)
    let b_off := hbucket_off group_start bucket
    if tdb_read_off m b_off = 0 then
      match encode_offset eoff bucket h with
      | .ok v => ([(b_off, v)], .ok ())
      | .error e => ([], .error e)
    else add_to_hashtable_loop_writes m eoff h group_start in_group n (i + 1)

/-- The function `add_to_hashtable` once more, now returning the list of the
calls `tdb_write_off` made until it stops, next to the way it stops. -/
def add_to_hashtable_writes (tdb : tdb_context) (eoff : Nat) (key : List Nat) :
    List (Nat × Nat) × Except Fault Unit :=
  let h := tdb_hash tdb key
  match use_bits h (TDB_TOPLEVEL_HASH_BITS - TDB_HASH_GROUP_BITS) 0 with
  | .error e => ([], .error e)
  | .ok (group, used) =>
    match use_bits h TDB_HASH_GROUP_BITS used with
    | .error e => ([], .error e)
    | .ok (in_group, _) =>
      add_to_hashtable_loop_writes tdb.map eoff h (add_to_hashtable_group_start group)
        in_group (1 <<< TDB_HASH_GROUP_BITS) 0

/-! ## Bit-field lemmas -/

/-- A value below `2 ^ k` joined to a multiple of `2 ^ k` by `|||` is their sum. -/
theorem or_eq_add (k a b : Nat) (ha : a % 2 ^ k = 0) (hb : b < 2 ^ k) :
    a ||| b = a + b := by
  have h := Nat.mul_add_lt_is_or hb (a / 2 ^ k)
  have e : 2 ^ k * (a / 2 ^ k) = a := by
    have := Nat.div_add_mod a (2 ^ k)
    omega
  rw [e] at h
  exact h.symm

/-- Masking with `n` ones placed at bit `k` keeps the field of width `n` at bit `k`. -/
theorem and_shl_mask (x n k : Nat) :
    x &&& ((2 ^ n - 1) <<< k) = ((x >>> k) % 2 ^ n) <<< k := by
  apply Nat.eq_of_testBit_eq
  intro i
  simp only [Nat.testBit_and, Nat.testBit_shiftLeft, Nat.testBit_two_pow_sub_one,
    Nat.testBit_mod_two_pow, Nat.testBit_shiftRight]
  by_cases h : k ≤ i
  · have e : k + (i - k) = i := by omega
    simp [h, e]
    exact Bool.and_comm _ _
  · simp [h]

theorem and_31 (x : Nat) : x &&& 31 = x % 32 := Nat.and_pow_two_sub_one_eq_mod x 5

theorem and_63 (x : Nat) : x &&& 63 = x % 64 := Nat.and_pow_two_sub_one_eq_mod x 6

theorem and_7 (x : Nat) : x &&& 7 = x % 8 := Nat.and_pow_two_sub_one_eq_mod x 3

theorem and_u32 (x : Nat) : x &&& 0xFFFFFFFF = x % 2 ^ 32 :=
  Nat.and_pow_two_sub_one_eq_mod x 32

/-- The first word built from five fields is the sum of the shifted fields. -/
theorem used_word_eq_sum (m k p f z : Nat) (hm : m < 2 ^ 16) (hk : k < 2 ^ 5)
    (hp : p < 2 ^ 32) (hf : f < 2 ^ 5) (hz : z < 2 ^ 6) :
    shl64 m 48 ||| shl64 k 43 ||| shl64 p 11 ||| shl64 f 6 ||| z
      = m * 2 ^ 48 + k * 2 ^ 43 + p * 2 ^ 11 + f * 2 ^ 6 + z := by
  have e1 : shl64 m 48 = m * 2 ^ 48 := by unfold shl64; omega
  have e2 : shl64 k 43 = k * 2 ^ 43 := by unfold shl64; omega
  have e3 : shl64 p 11 = p * 2 ^ 11 := by unfold shl64; omega
  have e4 : shl64 f 6 = f * 2 ^ 6 := by unfold shl64; omega
  rw [e1, e2, e3, e4]
  rw [or_eq_add 48 (m * 2 ^ 48) _ (by omega) (by omega),
    or_eq_add 43 (m * 2 ^ 48 + k * 2 ^ 43) _ (by omega) (by omega),
    or_eq_add 11 (m * 2 ^ 48 + k * 2 ^ 43 + p * 2 ^ 11) _ (by omega) (by omega),
    or_eq_add 6 (m * 2 ^ 48 + k * 2 ^ 43 + p * 2 ^ 11 + f * 2 ^ 6) _ (by omega) (by omega)]

theorem rec_key_bits_eq (r : tdb_used_record) :
    rec_key_bits r = ((r.magic_and_meta >>> 43) % 32) * 2 := by
  unfold rec_key_bits
  have e : (1 <<< 5) - 1 = 31 := by decide
  rw [e, and_31]
  omega

/-! ## Record codec -/

/-- C1: the first word of a used record built from a magic `m < 2^16`, a
key-width field `k < 2^5`, a padding `p < 2^32`, a hash fragment `f < 2^5` and
a zone `z < 2^6` is a 64-bit word that decodes to `m`, `2 * k`, `p`, `f` and
`z`; and every 64-bit word is rebuilt from its five decoded fields, so the
fields overlap nowhere and leave no bit of the word out. -/
theorem used_word_round_trip (m k p f z kd : Nat) (hm : m < 2 ^ 16) (hk : k < 2 ^ 5)
    (hp : p < 2 ^ 32) (hf : f < 2 ^ 5) (hz : z < 2 ^ 6) :
    (shl64 m 48 ||| shl64 k 43 ||| shl64 p 11 ||| shl64 f 6 ||| z < 2 ^ 64
      ∧ rec_magic ⟨shl64 m 48 ||| shl64 k 43 ||| shl64 p 11 ||| shl64 f 6 ||| z, kd⟩ = m
      ∧ rec_key_bits ⟨shl64 m 48 ||| shl64 k 43 ||| shl64 p 11 ||| shl64 f 6 ||| z, kd⟩
          = 2 * k
      ∧ rec_extra_padding
          ⟨shl64 m 48 ||| shl64 k 43 ||| shl64 p 11 ||| shl64 f 6 ||| z, kd⟩ = p
      ∧ rec_hash ⟨shl64 m 48 ||| shl64 k 43 ||| shl64 p 11 ||| shl64 f 6 ||| z, kd⟩ = f
      ∧ rec_zone_bits ⟨shl64 m 48 ||| shl64 k 43 ||| shl64 p 11 ||| shl64 f 6 ||| z, kd⟩
          = z)
    ∧ (∀ w : Nat, w < 2 ^ 64 →
        rec_magic ⟨w, kd⟩ < 2 ^ 16 ∧ rec_key_bits ⟨w, kd⟩ / 2 < 2 ^ 5
        ∧ rec_key_bits ⟨w, kd⟩ % 2 = 0
        ∧ rec_extra_padding ⟨w, kd⟩ < 2 ^ 32 ∧ rec_hash ⟨w, kd⟩ < 2 ^ 5
        ∧ rec_zone_bits ⟨w, kd⟩ < 2 ^ 6
        ∧ shl64 (rec_magic ⟨w, kd⟩) 48 ||| shl64 (rec_key_bits ⟨w, kd⟩ / 2) 43
            ||| shl64 (rec_extra_padding ⟨w, kd⟩) 11 ||| shl64 (rec_hash ⟨w, kd⟩) 6
            ||| rec_zone_bits ⟨w, kd⟩ = w)
    ∧ 16 + 5 + 32 + 5 + 6 = 64 := by
  have e31 : (1 <<< 5) - 1 = 31 := by decide
  have e63 : (1 <<< 6) - 1 = 63 := by decide
  refine ⟨?_, ?_, rfl⟩
  · rw [used_word_eq_sum m k p f z hm hk hp hf hz]
    refine ⟨by omega, ?_, ?_, ?_, ?_, ?_⟩
    · unfold rec_magic; dsimp only; omega
    · rw [rec_key_bits_eq]; dsimp only; omega
    · unfold rec_extra_padding; dsimp only; rw [and_u32]; omega
    · unfold rec_hash; dsimp only; rw [e31, and_31]; omega
    · unfold rec_zone_bits; dsimp only; rw [e63, and_63]; omega
  · intro w hw
    have hkb := rec_key_bits_eq ⟨w, kd⟩
    have hma : rec_magic ⟨w, kd⟩ = (w >>> 48) % 2 ^ 16 := rfl
    have hpa : rec_extra_padding ⟨w, kd⟩ = (w >>> 11) % 2 ^ 32 := by
      unfold rec_extra_padding; dsimp only; rw [and_u32]
    have hha : rec_hash ⟨w, kd⟩ = (w >>> 6) % 32 := by
      unfold rec_hash; dsimp only; rw [e31, and_31]; omega
    have hzo : rec_zone_bits ⟨w, kd⟩ = w % 64 := by
      unfold rec_zone_bits; dsimp only; rw [e63, and_63]; omega
    dsimp only at hkb
    refine ⟨by omega, by omega, by omega, by omega, by omega, by omega, ?_⟩
    rw [used_word_eq_sum _ _ _ _ _ (by omega) (by omega) (by omega) (by omega) (by omega)]
    omega

/-- Witness of C1 at magic `0x1999`, key-width field 3, padding 5, hash
fragment 17 and zone 16. -/
theorem used_word_round_trip_witness :
    rec_magic ⟨shl64 0x1999 48 ||| shl64 3 43 ||| shl64 5 11 ||| shl64 17 6 ||| 16, 0⟩
        = 0x1999
      ∧ rec_key_bits ⟨shl64 0x1999 48 ||| shl64 3 43 ||| shl64 5 11 ||| shl64 17 6 ||| 16, 0⟩
        = 2 * 3 :=
  have h := (used_word_round_trip 0x1999 3 5 17 16 0 (by decide) (by decide) (by decide)
    (by decide) (by decide)).1
  ⟨h.2.1, h.2.2.1⟩

/-- C2: in a used-record header whose key width is `b = rec_key_bits r`, a key
length `kl < 2^b` and a data length `dl < 2^(64-b)` packed as
`kl | (dl << b)` form a 64-bit second word from which `rec_key_length` returns
`kl` and `rec_data_length` returns `dl`; for `b = 0` the key length is 0 and
the whole word is the data length. -/
theorem key_data_length_round_trip (mm kl dl : Nat)
    (hkl : kl < 2 ^ rec_key_bits ⟨mm, 0⟩)
    (hdl : dl < 2 ^ (64 - rec_key_bits ⟨mm, 0⟩)) :
    kl ||| shl64 dl (rec_key_bits ⟨mm, 0⟩) < 2 ^ 64
      ∧ rec_key_length ⟨mm, kl ||| shl64 dl (rec_key_bits ⟨mm, 0⟩)⟩ = kl
      ∧ rec_data_length ⟨mm, kl ||| shl64 dl (rec_key_bits ⟨mm, 0⟩)⟩ = dl
      ∧ (rec_key_bits ⟨mm, 0⟩ = 0 →
          kl = 0 ∧ kl ||| shl64 dl (rec_key_bits ⟨mm, 0⟩) = dl) := by
  have hb : rec_key_bits ⟨mm, 0⟩ ≤ 62 := by
    rw [rec_key_bits_eq]; dsimp only; omega
  generalize hbe : rec_key_bits ⟨mm, 0⟩ = b at hkl hdl hb
  have hkb : ∀ kd, rec_key_bits ⟨mm, kd⟩ = b := fun kd => hbe
  have hpos : 0 < 2 ^ b := Nat.two_pow_pos b
  have hsplit : 2 ^ (64 - b) * 2 ^ b = 2 ^ 64 := by
    rw [← Nat.pow_add]; congr 1; omega
  have hlt : dl * 2 ^ b < 2 ^ 64 := by
    rw [← hsplit]; exact Nat.mul_lt_mul_of_pos_right hdl hpos
  have hshl : shl64 dl b = 2 ^ b * dl := by
    unfold shl64
    rw [Nat.shiftLeft_eq, Nat.mod_eq_of_lt hlt, Nat.mul_comm]
  have hw : kl ||| shl64 dl b = 2 ^ b * dl + kl := by
    rw [hshl, Nat.lor_comm]
    exact (Nat.mul_add_lt_is_or hkl dl).symm
  have hone : sub64 (shl64 1 b) 1 = 2 ^ b - 1 := by
    have h1 : shl64 1 b = 2 ^ b := by
      unfold shl64
      rw [Nat.shiftLeft_eq, Nat.one_mul]
      exact Nat.mod_eq_of_lt (Nat.pow_lt_pow_right (by decide) (by omega))
    have h2 : 2 ^ b < 2 ^ 64 := Nat.pow_lt_pow_right (by decide) (by omega)
    rw [h1]; unfold sub64; omega
  refine ⟨?_, ?_, ?_, ?_⟩
  · rw [hw]
    have h1 : 2 ^ b * (dl + 1) ≤ 2 ^ b * 2 ^ (64 - b) := Nat.mul_le_mul_left _ hdl
    rw [Nat.mul_comm (2 ^ b) (2 ^ (64 - b)), hsplit, Nat.mul_add, Nat.mul_one] at h1
    omega
  · unfold rec_key_length
    rw [hkb]; dsimp only
    rw [hone, Nat.and_pow_two_sub_one_eq_mod, hw, Nat.mul_add_mod, Nat.mod_eq_of_lt hkl]
  · unfold rec_data_length
    rw [hkb]; dsimp only
    rw [Nat.shiftRight_eq_div_pow, hw, Nat.mul_add_div hpos, Nat.div_eq_of_lt hkl]
    rfl
  · intro h0
    subst h0
    have : kl = 0 := by simpa using hkl
    subst this
    refine ⟨rfl, ?_⟩
    rw [hw]; simp

/-- Witness of C2 at key width 6 (key-width field 3), key length 63 and data
length `2^58 - 1`, the largest values that fit. -/
theorem key_data_length_round_trip_witness :
    rec_key_length ⟨shl64 3 43, 63 ||| shl64 (2 ^ 58 - 1) (rec_key_bits ⟨shl64 3 43, 0⟩)⟩
        = 63
      ∧ rec_data_length
          ⟨shl64 3 43, 63 ||| shl64 (2 ^ 58 - 1) (rec_key_bits ⟨shl64 3 43, 0⟩)⟩
        = 2 ^ 58 - 1 :=
  have h := key_data_length_round_trip (shl64 3 43) 63 (2 ^ 58 - 1) (by decide) (by decide)
  ⟨h.2.1, h.2.2.1⟩

/-- C3: `bswap_64` is not the reversal of the eight bytes. On the word
`0x0100`, whose byte 1 is 1 and whose other bytes are 0, it returns `2^56`:
byte 7 of the result is 1 where byte 0 of the input is 0, and byte 6 of the
result is 0 where byte 1 of the input is 1. -/
theorem bswap_64_misplaces_byte_one :
    bswap_64 0x0100 = 2 ^ 56
      ∧ byte_of (bswap_64 0x0100) 7 = 1 ∧ byte_of 0x0100 (7 - 7) = 0
      ∧ byte_of (bswap_64 0x0100) 6 = 0 ∧ byte_of 0x0100 (7 - 6) = 1 := by
  decide

/-- C4: `bswap_64` applied twice does not give the word back. The word 1 is
sent to `2^56`, and `2^56` is sent to 0, as is the word 0: the function is
neither an involution nor injective. -/
theorem bswap_64_twice_loses_word :
    bswap_64 1 = 2 ^ 56 ∧ bswap_64 (bswap_64 1) = 0 ∧ bswap_64 (bswap_64 1) ≠ 1
      ∧ bswap_64 (2 ^ 56) = bswap_64 0 := by
  decide

/-- C5: for a zone `z < 64` the free-record word `TDB_FREE_MAGIC | z` and the
coalescing word `TDB_COALESCING_MAGIC | z` do not carry the used-record magic;
a word `w` that carries the used-record magic has a free-record magic
different from `TDB_FREE_MAGIC` and from `TDB_COALESCING_MAGIC`; and the two
free-record constants differ. -/
theorem magic_distinguishes_kinds (z w kd dl nx pv : Nat) (hz : z < 64)
    (hm : rec_magic ⟨w, kd⟩ = TDB_MAGIC) :
    rec_magic ⟨TDB_FREE_MAGIC ||| z, kd⟩ ≠ TDB_MAGIC
      ∧ rec_magic ⟨TDB_COALESCING_MAGIC ||| z, kd⟩ ≠ TDB_MAGIC
      ∧ frec_magic ⟨w, dl, nx, pv⟩ ≠ TDB_FREE_MAGIC
      ∧ frec_magic ⟨w, dl, nx, pv⟩ ≠ TDB_COALESCING_MAGIC
      ∧ TDB_FREE_MAGIC ≠ TDB_COALESCING_MAGIC := by
  have hF : TDB_FREE_MAGIC = 18446744073709132160 := by decide
  have hC : TDB_COALESCING_MAGIC = 13146274953935680 := by decide
  have hM : TDB_MAGIC = 6553 := rfl
  have hmask : not64 (sub64 (shl64 1 6) 1) = (2 ^ 58 - 1) <<< 6 := by decide
  have hfm : frec_magic ⟨w, dl, nx, pv⟩ = ((w >>> 6) % 2 ^ 58) <<< 6 := by
    unfold frec_magic; dsimp only
    rw [hmask, and_shl_mask]
  have hrm : rec_magic ⟨w, kd⟩ = (w >>> 48) % 2 ^ 16 := rfl
  rw [hrm, hM] at hm
  rw [hfm, hF, hC, hM]
  refine ⟨?_, ?_, by omega, by omega, by decide⟩
  · rw [or_eq_add 6 _ z (by decide) hz]
    unfold rec_magic; dsimp only; omega
  · rw [or_eq_add 6 _ z (by decide) hz]
    unfold rec_magic; dsimp only; omega

/-- Witness of C5 at zone 5 and at the word whose top 16 bits are `TDB_MAGIC`. -/
theorem magic_distinguishes_kinds_witness :
    rec_magic ⟨TDB_FREE_MAGIC ||| 5, 0⟩ ≠ TDB_MAGIC
      ∧ frec_magic ⟨shl64 TDB_MAGIC 48, 0, 0, 0⟩ ≠ TDB_FREE_MAGIC :=
  have h := magic_distinguishes_kinds 5 (shl64 TDB_MAGIC 48) 0 0 0 0 (by decide) (by decide)
  ⟨h.1, h.2.2.1⟩

/-! ## Memory lemmas -/

/-- A word below `2^64` written at `off` is read back from `off`. -/
theorem read_write_same (m : Mem) (off v : Nat) (hv : v < 2 ^ 64) :
    tdb_read_off (tdb_write_off m off v) off = v := by
  unfold tdb_read_off tdb_write_off
  have c0 : off ≤ off ∧ off < off + 8 := by omega
  have c1 : off ≤ off + 1 ∧ off + 1 < off + 8 := by omega
  have c2 : off ≤ off + 2 ∧ off + 2 < off + 8 := by omega
  have c3 : off ≤ off + 3 ∧ off + 3 < off + 8 := by omega
  have c4 : off ≤ off + 4 ∧ off + 4 < off + 8 := by omega
  have c5 : off ≤ off + 5 ∧ off + 5 < off + 8 := by omega
  have c6 : off ≤ off + 6 ∧ off + 6 < off + 8 := by omega
  have c7 : off ≤ off + 7 ∧ off + 7 < off + 8 := by omega
  simp only [if_pos c0, if_pos c1, if_pos c2, if_pos c3, if_pos c4, if_pos c5, if_pos c6,
    if_pos c7, Nat.sub_self, Nat.add_sub_cancel_left, Nat.mul_zero, Nat.shiftRight_zero]
  omega

/-- Writing a word at `off` changes no byte outside `[off, off + 8)`. -/
theorem write_frame (m : Mem) (off v a : Nat) (h : ¬ (off ≤ a ∧ a < off + 8)) :
    tdb_write_off m off v a = m a := by
  unfold tdb_write_off
  rw [if_neg h]

/-- Writing a word at `off` changes no word that lies apart from it. -/
theorem read_write_other (m : Mem) (off v b : Nat) (h : b + 8 ≤ off ∨ off + 8 ≤ b) :
    tdb_read_off (tdb_write_off m off v) b = tdb_read_off m b := by
  unfold tdb_read_off
  rw [write_frame m off v b (by omega), write_frame m off v (b + 1) (by omega),
    write_frame m off v (b + 2) (by omega), write_frame m off v (b + 3) (by omega),
    write_frame m off v (b + 4) (by omega), write_frame m off v (b + 5) (by omega),
    write_frame m off v (b + 6) (by omega), write_frame m off v (b + 7) (by omega)]

/-! ## `bits`, `use_bits`, `encode_offset` -/

/-- Within the range in which both shifts are defined, `bits` is the field of
width `num` at bit `start`. -/
theorem bits_ok (val start num : Nat) (hs : start < 64) (hn : num < 32) :
    bits val start num = .ok ((val >>> start) % 2 ^ num) := by
  have h1 : ¬ ¬ num ≤ 32 := by omega
  have h2 : ¬ (64 ≤ start ∨ 32 ≤ num) := by omega
  have hp : 2 ^ num < 2 ^ 32 := Nat.pow_lt_pow_right (by decide) hn
  have hpos : 0 < 2 ^ num := Nat.two_pow_pos num
  have hm : sub32 (shl32 1 num) 1 = 2 ^ num - 1 := by
    unfold sub32 shl32
    rw [Nat.shiftLeft_eq, Nat.one_mul, Nat.mod_eq_of_lt hp]
    omega
  unfold bits
  rw [if_neg h1, if_neg h2, hm, Nat.and_pow_two_sub_one_eq_mod]
  have hlt : (val >>> start) % 2 ^ num < 2 ^ num := Nat.mod_lt _ hpos
  rw [Nat.mod_eq_of_lt (by omega)]

theorem use_bits_group (h : Nat) :
    use_bits h (TDB_TOPLEVEL_HASH_BITS - TDB_HASH_GROUP_BITS) 0
      = .ok ((h >>> 57) % 128, 7) := by
  unfold use_bits
  have e : bits h (sub32 64 ((0 + (TDB_TOPLEVEL_HASH_BITS - TDB_HASH_GROUP_BITS)) % 2 ^ 32))
      (TDB_TOPLEVEL_HASH_BITS - TDB_HASH_GROUP_BITS) = .ok ((h >>> 57) % 2 ^ 7) :=
    bits_ok h 57 7 (by decide) (by decide)
  simp only [e]
  rfl

theorem use_bits_in_group (h : Nat) :
    use_bits h TDB_HASH_GROUP_BITS 7 = .ok ((h >>> 54) % 8, 10) := by
  unfold use_bits
  have e : bits h (sub32 64 ((7 + TDB_HASH_GROUP_BITS) % 2 ^ 32)) TDB_HASH_GROUP_BITS
      = .ok ((h >>> 54) % 2 ^ 3) :=
    bits_ok h 54 3 (by decide) (by decide)
  simp only [e]
  rfl

theorem encode_offset_ok (new_off bucket h : Nat) :
    encode_offset new_off bucket h
      = .ok (bucket ||| new_off ||| shl64 ((h >>> 57) % 128) 57) := by
  unfold encode_offset
  have e : bits h (64 - TDB_OFF_UPPER_STEAL_EXTRA) TDB_OFF_UPPER_STEAL_EXTRA
      = .ok ((h >>> 57) % 2 ^ 7) :=
    bits_ok h 57 7 (by decide) (by decide)
  simp only [e]
  rfl

/-- A join by `|||` is zero only if both sides are. -/
theorem or_eq_zero (a b : Nat) (h : a ||| b = 0) : a = 0 ∧ b = 0 := by
  have key : ∀ i, (a.testBit i || b.testBit i) = false := by
    intro i
    rw [← Nat.testBit_or, h]
    exact Nat.zero_testBit i
  constructor
  · apply Nat.eq_of_testBit_eq
    intro i
    have := key i
    simp_all
  · apply Nat.eq_of_testBit_eq
    intro i
    have := key i
    simp_all

/-- The encoded slot value is a 64-bit word, and it is zero only if the offset is. -/
theorem encode_value_bounds (new_off bucket t : Nat) (hb : bucket < 8)
    (ho : new_off < 2 ^ 64) :
    ((bucket ||| new_off ||| shl64 (t % 128) 57) = 0 → new_off = 0)
      ∧ (bucket ||| new_off ||| shl64 (t % 128) 57) < 2 ^ 64 := by
  have hs : shl64 (t % 128) 57 < 2 ^ 64 := by unfold shl64; omega
  have h1 : bucket ||| new_off < 2 ^ 64 := Nat.or_lt_two_pow (by omega) ho
  refine ⟨?_, Nat.or_lt_two_pow h1 hs⟩
  intro h0
  exact (or_eq_zero _ _ (or_eq_zero _ _ h0).1).2

/-! ## `add_to_hashtable` -/

/-- The probe of `add_to_hashtable`: with `n` iterations left at counter `i`,
if the slots of the counters `i, ..., i + d - 1` are taken and the slot of
counter `i + d` is empty (`d < n`), the loop writes the encoded value into
that slot. -/
theorem loop_first_empty (m : Mem) (eoff h gs ig : Nat) :
    ∀ (d n i : Nat), d < n → i + d < 8 →
      (∀ j, j < d → tdb_read_off m (hbucket_off gs ((ig + (i + j)) % 8)) ≠ 0) →
      tdb_read_off m (hbucket_off gs ((ig + (i + d)) % 8)) = 0 →
      add_to_hashtable_loop m eoff h gs ig n i
        = .ok (tdb_write_off m (hbucket_off gs ((ig + (i + d)) % 8))
            (((ig + (i + d)) % 8) ||| eoff ||| shl64 ((h >>> 57) % 128) 57)) := by
  have hb : ∀ i, i < 8 →
      ((ig + i) % 2 ^ 32) % (1 <<< TDB_HASH_GROUP_BITS) = (ig + i) % 8 := by
    intro i hi
    have e : (1 <<< TDB_HASH_GROUP_BITS) = 8 := by decide
    rw [e]; omega
  intro d
  induction d with
  | zero =>
    intro n i hn hi _ hempty
    obtain ⟨n1, rfl⟩ : ∃ n1, n = n1 + 1 := ⟨n - 1, by omega⟩
    unfold add_to_hashtable_loop
    simp only [hb i (by omega), encode_offset_ok]
    rw [Nat.add_zero] at hempty
    rw [if_pos hempty]
    rfl
  | succ d ih =>
    intro n i hn hi hfull hempty
    obtain ⟨n1, rfl⟩ : ∃ n1, n = n1 + 1 := ⟨n - 1, by omega⟩
    unfold add_to_hashtable_loop
    simp only [hb i (by omega)]
    have h0 := hfull 0 (by omega)
    rw [Nat.add_zero] at h0
    rw [if_neg h0]
    have e : ∀ j, i + 1 + j = i + (j + 1) := by intro j; omega
    have := ih n1 (i + 1) (by omega) (by omega)
      (by intro j hj; rw [e]; exact hfull (j + 1) (by omega))
      (by rw [e]; exact hempty)
    rw [this, e]

/-- The probe of `add_to_hashtable` in terms of `hbucket_off`: if the slot of
bucket `(in_group + i) mod 8` is zero and the slots of all smaller `i` are
not, the function returns with the encoded value of that bucket written into
that slot. -/
theorem probe_places_first_empty (tdb : tdb_context) (eoff : Nat) (key : List Nat)
    (group used in_group used1 i : Nat)
    (hg : use_bits (tdb_hash tdb key) (TDB_TOPLEVEL_HASH_BITS - TDB_HASH_GROUP_BITS) 0
      = .ok (group, used))
    (hin : use_bits (tdb_hash tdb key) TDB_HASH_GROUP_BITS used = .ok (in_group, used1))
    (heoff : eoff ≠ 0) (hlt : eoff < 2 ^ 64) (hi : i < 8)
    (hfull : ∀ j, j < i →
      tdb_read_off tdb.map
        (hbucket_off (add_to_hashtable_group_start group) ((in_group + j) % 8)) ≠ 0)
    (hempty :
      tdb_read_off tdb.map
        (hbucket_off (add_to_hashtable_group_start group) ((in_group + i) % 8)) = 0) :
    ∃ v, encode_offset eoff ((in_group + i) % 8) (tdb_hash tdb key) = .ok v
      ∧ v ≠ 0 ∧ v < 2 ^ 64
      ∧ add_to_hashtable tdb eoff key
        = .ok { tdb with map := (tdb_write_off tdb.map
            (hbucket_off (add_to_hashtable_group_start group) ((in_group + i) % 8)) v) }
      ∧ tdb_read_off
          (tdb_write_off tdb.map
            (hbucket_off (add_to_hashtable_group_start group) ((in_group + i) % 8)) v)
          (hbucket_off (add_to_hashtable_group_start group) ((in_group + i) % 8)) = v
      ∧ (∀ a, ¬ (hbucket_off (add_to_hashtable_group_start group) ((in_group + i) % 8) ≤ a
            ∧ a < hbucket_off (add_to_hashtable_group_start group) ((in_group + i) % 8) + 8) →
          tdb_write_off tdb.map
            (hbucket_off (add_to_hashtable_group_start group) ((in_group + i) % 8)) v a = tdb.map a)
      ∧ (∀ b, b + 8 ≤ hbucket_off (add_to_hashtable_group_start group) ((in_group + i) % 8)
            ∨ hbucket_off (add_to_hashtable_group_start group) ((in_group + i) % 8) + 8 ≤ b →
          tdb_read_off
            (tdb_write_off tdb.map
              (hbucket_off (add_to_hashtable_group_start group) ((in_group + i) % 8)) v) b
            = tdb_read_off tdb.map b) := by
  rw [use_bits_group] at hg
  injection hg with hg
  injection hg with hg1 hg2
  subst hg2
  rw [use_bits_in_group] at hin
  injection hin with hin
  injection hin with hin1 hin2
  subst hg1 hin1
  have hbnd := encode_value_bounds eoff ((tdb_hash tdb key >>> 54 % 8 + i) % 8)
    (tdb_hash tdb key >>> 57) (by omega) hlt
  refine ⟨_, encode_offset_ok _ _ _, fun h0 => heoff (hbnd.1 h0), hbnd.2, ?_,
    read_write_same _ _ _ hbnd.2, fun a ha => write_frame _ _ _ a ha,
    fun b hb => read_write_other _ _ _ b hb⟩
  have hloop := loop_first_empty tdb.map eoff (tdb_hash tdb key)
    (add_to_hashtable_group_start (tdb_hash tdb key >>> 57 % 128)) (tdb_hash tdb key >>> 54 % 8)
    i 8 0 hi (by omega)
    (by intro j hj; rw [Nat.zero_add]; exact hfull j hj)
    (by rw [Nat.zero_add]; exact hempty)
  rw [Nat.zero_add] at hloop
  unfold add_to_hashtable
  simp only [use_bits_group, use_bits_in_group]
  have e8 : (1 <<< TDB_HASH_GROUP_BITS) = 8 := by decide
  rw [e8, hloop]

/-! ## Slot codec -/

/-- The offset mask keeps the 53 bits from bit 3 on. -/
theorem and_off_mask (x : Nat) : x &&& TDB_OFF_MASK = ((x >>> 3) % 2 ^ 53) <<< 3 := by
  have e : TDB_OFF_MASK = (2 ^ 53 - 1) <<< 3 := by decide
  rw [e, and_shl_mask]

/-- A 64-bit offset has no bit outside the offset mask exactly when it is a
multiple of 8 below `2^56`. -/
theorem aligned_iff (off : Nat) (hoff : off < 2 ^ 64) :
    off &&& not64 TDB_OFF_MASK = 0 ↔ off % 8 = 0 ∧ off < 2 ^ 56 := by
  have e : not64 TDB_OFF_MASK = ((2 ^ 8 - 1) <<< 56) ||| 7 := by decide
  rw [e, Nat.and_or_distrib_left, and_shl_mask, and_7]
  constructor
  · intro h
    have h2 := or_eq_zero _ _ h
    omega
  · intro h
    have h1 : ((off >>> 56) % 2 ^ 8) <<< 56 = 0 := by omega
    rw [h1, h.1]
    rfl

/-- The value that `encode_offset` builds, as a sum, for an aligned offset. -/
theorem encode_value_eq_sum (off bucket t : Nat) (h8 : off % 8 = 0) (h56 : off < 2 ^ 56)
    (hb : bucket < 8) :
    bucket ||| off ||| shl64 (t % 128) 57 = (t % 128) * 2 ^ 57 + off + bucket := by
  have hT : shl64 (t % 128) 57 = (t % 128) * 2 ^ 57 := by unfold shl64; omega
  rw [hT, Nat.lor_comm bucket off, or_eq_add 3 off bucket (by omega) (by omega),
    Nat.lor_comm, or_eq_add 57 _ (off + bucket) (by omega) (by omega)]
  omega

/-- C8: for a 64-bit offset with no bit outside `TDB_OFF_MASK`, a bucket below
8 and any hash `h`, `encode_offset` returns a 64-bit word `e` whose offset
field is the offset, whose group field is the bucket, whose bits from
`TDB_OFF_HASH_EXTRA_BIT` up are a 7-bit fragment of `h` (its top seven bits
as a 64-bit word), and whose truncated bit is clear. -/
theorem encode_offset_round_trip (off bucket h : Nat) (hoff : off < 2 ^ 64)
    (hal : off &&& not64 TDB_OFF_MASK = 0) (hb : bucket < 8) :
    ∃ e, encode_offset off bucket h = .ok e
      ∧ e < 2 ^ 64
      ∧ e &&& TDB_OFF_MASK = off
      ∧ e &&& TDB_OFF_HASH_GROUP_MASK = bucket
      ∧ e >>> TDB_OFF_HASH_EXTRA_BIT
          = (h >>> (64 - TDB_OFF_UPPER_STEAL_EXTRA)) % 2 ^ TDB_OFF_UPPER_STEAL_EXTRA
      ∧ e >>> TDB_OFF_HASH_EXTRA_BIT < 2 ^ TDB_OFF_UPPER_STEAL_EXTRA
      ∧ e &&& shl64 1 TDB_OFF_HASH_TRUNCATED_BIT = 0 := by
  have ha := (aligned_iff off hoff).1 hal
  have hsum := encode_value_eq_sum off bucket (h >>> 57) ha.1 ha.2 hb
  have hG : TDB_OFF_HASH_GROUP_MASK = 7 := by decide
  have hX : TDB_OFF_HASH_EXTRA_BIT = 57 := rfl
  have hS : TDB_OFF_UPPER_STEAL_EXTRA = 7 := rfl
  have hTr : shl64 1 TDB_OFF_HASH_TRUNCATED_BIT = (2 ^ 1 - 1) <<< 56 := by decide
  refine ⟨_, encode_offset_ok off bucket h, ?_, ?_, ?_, ?_, ?_, ?_⟩
  · rw [hsum]; omega
  · rw [and_off_mask, hsum]; omega
  · rw [hG, and_7, hsum]; omega
  · rw [hX, hS, hsum]; omega
  · rw [hX, hS, hsum]; omega
  · rw [hTr, and_shl_mask, hsum]; omega

/-- Witness of C8 at the offset of the first element, bucket 5 and the hash
with all 64 bits set. -/
theorem encode_offset_round_trip_witness :
    ∃ e, encode_offset 8504 5 (2 ^ 64 - 1) = .ok e
      ∧ e &&& TDB_OFF_MASK = 8504 ∧ e &&& TDB_OFF_HASH_GROUP_MASK = 5 :=
  match encode_offset_round_trip 8504 5 (2 ^ 64 - 1) (by decide) (by decide) (by decide) with
  | ⟨e, h1, _, h3, h4, _⟩ => ⟨e, h1, h3, h4⟩

/-! ## Top-level addressing -/

/-- C9: for a 64-bit hash `h`, the two `use_bits` calls of `add_to_hashtable`
return `group = h >> 57`, below 128, and `in_group = (h >> 54) & 7`, having
used 10 bits, so that `group * 8 + in_group = h >> 54`; and for each `i < 8`
the probed slot offset `hbucket_off(group_start, (in_group + i) mod 8)` is a
multiple of 8, lies in the 64 bytes of group `h >> 57`, and lies with all its
8 bytes between the start of the top-level table and the end of the header. -/
theorem toplevel_addressing (h i : Nat) (hh : h < 2 ^ 64) (hi : i < 8) :
    use_bits h (TDB_TOPLEVEL_HASH_BITS - TDB_HASH_GROUP_BITS) 0 = .ok (h >>> 57, 7)
      ∧ h >>> 57 < 128
      ∧ use_bits h TDB_HASH_GROUP_BITS 7 = .ok ((h >>> 54) &&& 7, TDB_TOPLEVEL_HASH_BITS)
      ∧ (h >>> 57) * 8 + ((h >>> 54) &&& 7) = h >>> 54
      ∧ add_to_hashtable_group_start (h >>> 57) = offsetof_tdb_header_hashtable + (h >>> 57) * 64
      ∧ hbucket_off (add_to_hashtable_group_start (h >>> 57))
          ((((h >>> 54) &&& 7) + i) % 8) % 8 = 0
      ∧ add_to_hashtable_group_start (h >>> 57)
          ≤ hbucket_off (add_to_hashtable_group_start (h >>> 57)) ((((h >>> 54) &&& 7) + i) % 8)
      ∧ hbucket_off (add_to_hashtable_group_start (h >>> 57)) ((((h >>> 54) &&& 7) + i) % 8) + 8
          ≤ add_to_hashtable_group_start (h >>> 57) + 64
      ∧ (hbucket_off (add_to_hashtable_group_start (h >>> 57)) ((((h >>> 54) &&& 7) + i) % 8)
          - offsetof_tdb_header_hashtable) / 64 = h >>> 57
      ∧ offsetof_tdb_header_hashtable
          ≤ hbucket_off (add_to_hashtable_group_start (h >>> 57)) ((((h >>> 54) &&& 7) + i) % 8)
      ∧ hbucket_off (add_to_hashtable_group_start (h >>> 57)) ((((h >>> 54) &&& 7) + i) % 8) + 8
          ≤ sizeof_tdb_header := by
  have hg : (h >>> 57) % 128 = h >>> 57 := by omega
  have hO : offsetof_tdb_header_hashtable = 312 := rfl
  have hS : sizeof_tdb_header = 8504 := by decide
  have hgs : add_to_hashtable_group_start (h >>> 57) = 312 + (h >>> 57) * 64 := by
    unfold add_to_hashtable_group_start add64
    have e : shl64 sizeof_tdb_off_t TDB_HASH_GROUP_BITS = 64 := by decide
    rw [e, hO]; omega
  have hb : hbucket_off (add_to_hashtable_group_start (h >>> 57)) ((((h >>> 54) &&& 7) + i) % 8)
      = 312 + (h >>> 57) * 64 + (((h >>> 54) % 8 + i) % 8) * 8 := by
    unfold hbucket_off add64
    have e : (1 <<< TDB_HASH_GROUP_BITS) = 8 := by decide
    have e2 : sizeof_tdb_off_t = 8 := rfl
    rw [hgs, e, e2, and_7]; omega
  rw [hb, hgs, hO, hS, and_7, use_bits_group, use_bits_in_group, hg]
  refine ⟨rfl, by omega, rfl, by omega, rfl, by omega, by omega, by omega, by omega,
    by omega, by omega⟩

/-- Witness of C9 at the hash with all 64 bits set (group 127, bucket 7) and
the last probe. -/
theorem toplevel_addressing_witness :
    use_bits (2 ^ 64 - 1) (TDB_TOPLEVEL_HASH_BITS - TDB_HASH_GROUP_BITS) 0
        = .ok ((2 ^ 64 - 1) >>> 57, 7)
      ∧ hbucket_off (add_to_hashtable_group_start ((2 ^ 64 - 1) >>> 57))
          (((((2 ^ 64 - 1) >>> 54) &&& 7) + 7) % 8) + 8 ≤ sizeof_tdb_header :=
  have h := toplevel_addressing (2 ^ 64 - 1) 7 (by decide) (by decide)
  ⟨h.1, h.2.2.2.2.2.2.2.2.2.2⟩

/-- C10: the seven bits that `add_to_hashtable` stores at
`TDB_OFF_HASH_EXTRA_BIT` are not the seven bits of the hash below the ten
bits already used. For the hash `2^47`, whose bits 47..53 are `0000001`, the
slot written into the empty table holds 8504, whose upper seven bits are 0;
for the hash `2^57`, whose bits 47..53 are 0, the slot of group 1 holds
`2^57 + 8504`, whose upper seven bits are 1, the group number. -/
theorem stored_hash_bits_are_group_bits :
    (∃ tdb1, add_to_hashtable (blank_tdb (fun _ _ => 2 ^ 47)) 8504 [] = .ok tdb1
        ∧ tdb_read_off tdb1.map 312 = 8504
        ∧ tdb_read_off tdb1.map 312 >>> TDB_OFF_HASH_EXTRA_BIT = 0
        ∧ (tdb_hash (blank_tdb (fun _ _ => 2 ^ 47)) [] >>> 47) % 2 ^ 7 = 1)
      ∧ (∃ tdb1, add_to_hashtable (blank_tdb (fun _ _ => 2 ^ 57)) 8504 [] = .ok tdb1
        ∧ tdb_read_off tdb1.map 376 = 2 ^ 57 + 8504
        ∧ tdb_read_off tdb1.map 376 >>> TDB_OFF_HASH_EXTRA_BIT = 1
        ∧ (tdb_hash (blank_tdb (fun _ _ => 2 ^ 57)) [] >>> 47) % 2 ^ 7 = 0) :=
  ⟨⟨_, rfl, by decide, by decide, by decide⟩, ⟨_, rfl, by decide, by decide, by decide⟩⟩

/-! ## Slots written for the elements of a layout -/

/-- Whenever the probe returns, it has written the encoded value of some
bucket into the slot of that bucket, which was empty. -/
theorem loop_ok_inv (m m1 : Mem) (eoff h gs ig : Nat) :
    ∀ (n i : Nat), add_to_hashtable_loop m eoff h gs ig n i = .ok m1 →
      ∃ b, b < 8 ∧ tdb_read_off m (hbucket_off gs b) = 0
        ∧ m1 = tdb_write_off m (hbucket_off gs b)
            (b ||| eoff ||| shl64 ((h >>> 57) % 128) 57) := by
  intro n
  induction n with
  | zero =>
    intro i hok
    unfold add_to_hashtable_loop at hok
    cases hok
  | succ n ih =>
    intro i hok
    unfold add_to_hashtable_loop at hok
    simp only [encode_offset_ok] at hok
    have e : (1 <<< TDB_HASH_GROUP_BITS) = 8 := by decide
    rw [e] at hok
    by_cases hz : tdb_read_off m (hbucket_off gs ((ig + i) % 2 ^ 32 % 8)) = 0
    · rw [if_pos hz] at hok
      injection hok with hok
      exact ⟨(ig + i) % 2 ^ 32 % 8, by omega, hz, hok.symm⟩
    · rw [if_neg hz] at hok
      exact ih (i + 1) hok

/-- Whenever `add_to_hashtable` returns, it has written the encoded value of
some bucket into one slot, which was empty, and has changed nothing else of
the handle. -/
theorem add_to_hashtable_ok_inv (tdb tdb1 : tdb_context) (eoff : Nat) (key : List Nat)
    (hok : add_to_hashtable tdb eoff key = .ok tdb1) :
    ∃ b_off b, b < 8 ∧ tdb_read_off tdb.map b_off = 0
      ∧ tdb1 = { tdb with map := (tdb_write_off tdb.map b_off
          (b ||| eoff ||| shl64 ((tdb_hash tdb key >>> 57) % 128) 57)) } := by
  unfold add_to_hashtable at hok
  simp only [use_bits_group, use_bits_in_group] at hok
  generalize hl : add_to_hashtable_loop tdb.map eoff (tdb_hash tdb key)
    (add_to_hashtable_group_start ((tdb_hash tdb key >>> 57) % 128)) ((tdb_hash tdb key >>> 54) % 8)
    (1 <<< TDB_HASH_GROUP_BITS) 0 = r at hok
  cases r with
  | error x => cases hok
  | ok m1 =>
    injection hok with hok
    obtain ⟨b, hb, hz, hm⟩ := loop_ok_inv _ _ _ _ _ _ _ _ hl
    exact ⟨_, b, hb, hz, by rw [← hok, hm]⟩

/-- Every offset that the first loop gives to an element is a 64-bit word. -/
theorem tdb_layout_get_offsets_loop_lt (fsz : Nat) :
    ∀ (es : List tdb_layout_elem) (off fl : Nat) (offs : List Nat) (o f : Nat),
      off < 2 ^ 64 → tdb_layout_get_first_loop fsz es off fl = .ok (offs, o, f) →
      ∀ x, x ∈ offs → x < 2 ^ 64 := by
  intro es
  induction es with
  | nil =>
    intro off fl offs o f _ hok x hx
    unfold tdb_layout_get_first_loop at hok
    injection hok with hok
    injection hok with h1 _
    subst h1
    cases hx
  | cons e es ih =>
    intro off fl offs o f hoff hok x hx
    unfold tdb_layout_get_first_loop at hok
    cases he : tdb_layout_get_first_elem fsz e off fl with
    | error y => rw [he] at hok; cases hok
    | ok p =>
      obtain ⟨len, fl1⟩ := p
      rw [he] at hok
      dsimp only at hok
      cases hr : tdb_layout_get_first_loop fsz es (add64 off len) fl1 with
      | error y => rw [hr] at hok; cases hok
      | ok q =>
        obtain ⟨offs1, o1, f1⟩ := q
        rw [hr] at hok
        dsimp only at hok
        injection hok with hok
        injection hok with h1 _
        subst h1
        cases hx with
        | head => exact hoff
        | tail _ hx1 =>
          exact ih (add64 off len) fl1 offs1 o1 f1 (by unfold add64; omega) hr x hx1

/-- Every offset that the first pass gives to an element is a 64-bit word. -/
theorem tdb_layout_get_offsets_lt (fsz : Nat) (layout : List tdb_layout_elem) (offs : List Nat)
    (o f : Nat) (hok : tdb_layout_get_first_pass fsz layout = .ok (offs, o, f)) :
    ∀ x, x ∈ offs → x < 2 ^ 64 := by
  unfold tdb_layout_get_first_pass at hok
  cases hr : tdb_layout_get_first_loop fsz layout sizeof_tdb_header 0 with
  | error y => rw [hr] at hok; cases hok
  | ok q =>
    obtain ⟨offs1, o1, f1⟩ := q
    rw [hr] at hok
    dsimp only at hok
    by_cases hf : f1 ≠ 0
    · rw [if_pos hf] at hok
      injection hok with hok
      injection hok with h1 _
      subst h1
      exact tdb_layout_get_offsets_loop_lt fsz layout sizeof_tdb_header 0 offs1 o1 f1 (by decide) hr
    · rw [if_neg hf] at hok
      cases hok

/-- The offset field of an encoded slot value is the offset field of the offset. -/
theorem encode_value_and_mask (off b t : Nat) (hb : b < 8) :
    (b ||| off ||| shl64 (t % 128) 57) &&& TDB_OFF_MASK = off &&& TDB_OFF_MASK := by
  have h1 : b &&& TDB_OFF_MASK = 0 := by rw [and_off_mask]; omega
  have h2 : shl64 (t % 128) 57 &&& TDB_OFF_MASK = 0 := by
    rw [and_off_mask]; unfold shl64; omega
  rw [Nat.and_comm, Nat.and_or_distrib_left, Nat.and_or_distrib_left,
    Nat.and_comm _ b, Nat.and_comm _ off, Nat.and_comm _ (shl64 (t % 128) 57), h1, h2,
    Nat.zero_or, Nat.or_zero]

/-- C7, as the code has it: for a layout that the first pass accepts and a
DATA element of it with offset `off`, whenever `add_to_hashtable` returns for
that element it has written one slot, empty before, whose value `s` has the
offset field of `off`: `s & TDB_OFF_MASK = off & TDB_OFF_MASK`. That field is
`off` itself exactly when `off` has no bit outside the mask
(`off & ~TDB_OFF_MASK = 0`: a multiple of 8 below `2^56`). -/
theorem slot_points_at_aligned_record (fsz : Nat) (layout : List tdb_layout_elem)
    (offs : List Nat) (map_size flist_off : Nat)
    (hacc : tdb_layout_get_first_pass fsz layout = .ok (offs, map_size, flist_off))
    (i : Nat) (key data : List Nat) (extra off : Nat)
    (_he : layout[i]? = some (.DATA key data extra)) (ho : offs[i]? = some off)
    (tdb tdb1 : tdb_context) (hadd : add_to_hashtable tdb off key = .ok tdb1) :
    ∃ b_off, tdb_read_off tdb.map b_off = 0
      ∧ (∀ a, ¬ (b_off ≤ a ∧ a < b_off + 8) → tdb1.map a = tdb.map a)
      ∧ tdb_read_off tdb1.map b_off &&& TDB_OFF_MASK = off &&& TDB_OFF_MASK
      ∧ (tdb_read_off tdb1.map b_off &&& TDB_OFF_MASK = off
          ↔ off &&& not64 TDB_OFF_MASK = 0) := by
  have hoff : off < 2 ^ 64 :=
    tdb_layout_get_offsets_lt fsz layout offs map_size flist_off hacc off (List.getElem?_mem ho)
  obtain ⟨b_off, b, hb, hz, hm⟩ := add_to_hashtable_ok_inv tdb tdb1 off key hadd
  have hbnd := encode_value_bounds off b (tdb_hash tdb key >>> 57) hb hoff
  have hread : tdb_read_off tdb1.map b_off
      = b ||| off ||| shl64 ((tdb_hash tdb key >>> 57) % 128) 57 := by
    rw [hm]; exact read_write_same _ _ _ hbnd.2
  have hmask := encode_value_and_mask off b (tdb_hash tdb key >>> 57) hb
  refine ⟨b_off, hz, ?_, ?_, ?_⟩
  · intro a ha
    rw [hm]; exact write_frame _ _ _ a ha
  · rw [hread, hmask]
  · rw [hread, hmask, aligned_iff off hoff, and_off_mask]
    constructor
    · intro h; omega
    · intro h; omega

/-- Witness of C7 as amended: the layout of a free list (464 bytes) followed by
one record with a 1-byte key, a 16-byte value and 7 bytes of padding; the
record lies at offset 8968, a multiple of 8, and the file is all zero. -/
theorem slot_points_at_aligned_record_witness :
    ∃ b_off, tdb_read_off (blank_tdb (fun _ _ => 0)).map b_off = 0
      ∧ tdb_read_off (tdb_write_off (blank_tdb (fun _ _ => 0)).map 312 8968) b_off
          &&& TDB_OFF_MASK = 8968 :=
  match slot_points_at_aligned_record 464
      [.FREELIST, .DATA [1] (List.replicate 16 0) 7] [8504, 8968] 9008 8504 rfl
      1 [1] (List.replicate 16 0) 7 8968 rfl rfl
      (blank_tdb (fun _ _ => 0))
      { blank_tdb (fun _ _ => 0) with
        map := (tdb_write_off (blank_tdb (fun _ _ => 0)).map 312 8968) } rfl with
  | ⟨b_off, h1, _, _, h4⟩ => ⟨b_off, h1, h4.2 (by decide)⟩

/-- C7 fails on a layout that the first pass accepts: two records, each with a
1-byte key and a 16-byte value and so 33 bytes long, then a free list of 464
bytes. The second record gets the offset 8537; filling the tables of an empty file, with
a hash function that sends the key `[1]` to group 1, writes for it the slot at
376, whose value `2^57 + 8537` has the offset field 8536, not 8537. -/
theorem slot_misses_unaligned_record :
    tdb_layout_get_first_pass 464
        [.DATA [0] (List.replicate 16 0) 0, .DATA [1] (List.replicate 16 0) 0, .FREELIST]
        = .ok ([8504, 8537, 8570], 9034, 8570)
      ∧ ∃ tdb1, tdb_layout_get_fill (fun t _ _ => t)
            [(.DATA [0] (List.replicate 16 0) 0, 8504),
              (.DATA [1] (List.replicate 16 0) 0, 8537), (.FREELIST, 8570)]
            (blank_tdb (fun key _ => key.sum * 2 ^ 57)) = .ok tdb1
        ∧ tdb_read_off (blank_tdb (fun key _ => key.sum * 2 ^ 57)).map 376 = 0
        ∧ tdb_read_off tdb1.map 376 = 2 ^ 57 + 8537
        ∧ tdb_read_off tdb1.map 376 &&& TDB_OFF_MASK = 8536
        ∧ tdb_read_off tdb1.map 376 &&& TDB_OFF_MASK ≠ 8537 :=
  ⟨rfl, _, rfl, by decide, by decide, by decide, by decide⟩

/-! ## Constants: hash bits, header layout, offsets, lock offsets -/

/-- C11: the top level and nine sub-levels use `10 + 9 * 6 = 64` hash bits; a
sub-level of `2^6` entries is 8 groups of `2^3` entries; and the array
`levels` of the traversal cursor has `64 / 6 = 10` entries, room for the top
level and nine sub-levels. -/
theorem hash_consumed_exactly :
    TDB_TOPLEVEL_HASH_BITS + 9 * TDB_SUBLEVEL_HASH_BITS = 64
      ∧ 2 ^ TDB_SUBLEVEL_HASH_BITS = 8 * 2 ^ TDB_HASH_GROUP_BITS
      ∧ traverse_info_levels = 10
      ∧ 1 + 9 ≤ traverse_info_levels := by
  decide

/-- C17: in `struct tdb_header` the magic string takes the bytes `[0, 64)`;
`version`, `hash_test` and `hash_seed` are the 64-bit words at 64, 72 and 80;
the 28 reserved words start at 88; the top-level hash table starts at 312 and
has `2^10` slots of 8 bytes up to the end of the struct; and the size of the
struct is 8504, a multiple of 8. -/
theorem header_layout :
    sizeof_tdb_header_magic_food = 64
      ∧ offsetof_tdb_header_version = 64
      ∧ offsetof_tdb_header_hash_test = 72
      ∧ offsetof_tdb_header_hash_seed = 80
      ∧ offsetof_tdb_header_reserved = 88
      ∧ offsetof_tdb_header_hashtable
          = offsetof_tdb_header_reserved + tdb_header_reserved_entries * sizeof_tdb_off_t
      ∧ offsetof_tdb_header_hashtable = 312
      ∧ tdb_header_hashtable_entries = 2 ^ 10
      ∧ sizeof_tdb_header
          = offsetof_tdb_header_hashtable + tdb_header_hashtable_entries * sizeof_tdb_off_t
      ∧ sizeof_tdb_header = 8504
      ∧ sizeof_tdb_header % 8 = 0 := by
  decide

/-- C18, as the code has it: a 64-bit value with no bit outside `TDB_OFF_MASK`
is at most `TDB_OFF_MASK`, which is such a value itself and equals
`2^(64 - TDB_OFF_UPPER_STEAL) - 8 = 64 * 2^50 - 8`: the largest offset that a
slot can hold is 64 pebibytes, to within the 8-byte alignment. -/
theorem maximum_offset (v : Nat) (hv : v < 2 ^ 64) (hm : v &&& not64 TDB_OFF_MASK = 0) :
    v ≤ TDB_OFF_MASK
      ∧ TDB_OFF_MASK &&& not64 TDB_OFF_MASK = 0
      ∧ TDB_OFF_MASK = 2 ^ (64 - TDB_OFF_UPPER_STEAL) - 8
      ∧ TDB_OFF_MASK = 64 * 2 ^ 50 - 8 := by
  have h := (aligned_iff v hv).1 hm
  have e : TDB_OFF_MASK = 2 ^ 56 - 8 := by decide
  refine ⟨by rw [e]; omega, by decide, by decide, by decide⟩

/-- Witness of C18 as amended, at the offset of the first element of a layout. -/
theorem maximum_offset_witness : 8504 ≤ TDB_OFF_MASK :=
  (maximum_offset 8504 (by decide) (by decide)).1

/-- C18 fails: 64 exabytes, less the 8 bytes of alignment, is not a 64-bit
value at all, whether an exabyte is `10^18` or `2^60` bytes; and already
`2^56`, far below one exabyte, has a bit outside `TDB_OFF_MASK`. -/
theorem maximum_offset_is_not_64_exabytes :
    2 ^ 64 ≤ 64 * 10 ^ 18 - 8 ∧ 2 ^ 64 ≤ 64 * 2 ^ 60 - 8
      ∧ TDB_OFF_MASK + 8 = 2 ^ 56
      ∧ 2 ^ 56 &&& not64 TDB_OFF_MASK ≠ 0
      ∧ 2 ^ 56 < 10 ^ 18 ∧ 2 ^ 56 < 2 ^ 60 := by
  decide

/-- C19: the open, transaction and expansion lock offsets are 0, 1 and 2,
pairwise distinct and below `TDB_HASH_LOCK_START = 3`; an offset `o` of the
hash lock range `[TDB_HASH_LOCK_START, TDB_HASH_LOCK_START + 2^30)` is none of
the three and fits the 32-bit field `off` of `struct tdb_lock_type`. -/
theorem lock_regions_apart (o : Nat) (hlo : TDB_HASH_LOCK_START ≤ o)
    (hhi : o < TDB_HASH_LOCK_START + TDB_HASH_LOCK_RANGE) :
    TDB_OPEN_LOCK = 0 ∧ TDB_TRANSACTION_LOCK = 1 ∧ TDB_EXPANSION_LOCK = 2
      ∧ TDB_OPEN_LOCK ≠ TDB_TRANSACTION_LOCK ∧ TDB_OPEN_LOCK ≠ TDB_EXPANSION_LOCK
      ∧ TDB_TRANSACTION_LOCK ≠ TDB_EXPANSION_LOCK
      ∧ TDB_HASH_LOCK_START = 3
      ∧ TDB_OPEN_LOCK < TDB_HASH_LOCK_START ∧ TDB_TRANSACTION_LOCK < TDB_HASH_LOCK_START
      ∧ TDB_EXPANSION_LOCK < TDB_HASH_LOCK_START
      ∧ TDB_HASH_LOCK_RANGE = 2 ^ 30
      ∧ o ≠ TDB_OPEN_LOCK ∧ o ≠ TDB_TRANSACTION_LOCK ∧ o ≠ TDB_EXPANSION_LOCK
      ∧ o < tdb_lock_type_off_range := by
  have hs : TDB_HASH_LOCK_START = 3 := rfl
  have hr : TDB_HASH_LOCK_RANGE = 2 ^ 30 := by decide
  have h0 : TDB_OPEN_LOCK = 0 := rfl
  have h1 : TDB_TRANSACTION_LOCK = 1 := rfl
  have h2 : TDB_EXPANSION_LOCK = 2 := rfl
  have h32 : tdb_lock_type_off_range = 2 ^ 32 := rfl
  rw [hs, hr] at hhi
  rw [hs] at hlo
  rw [h0, h1, h2, hs, hr, h32]
  omega

/-- Witness of C19 at the last offset of the hash lock range. -/
theorem lock_regions_apart_witness :
    TDB_HASH_LOCK_START + TDB_HASH_LOCK_RANGE - 1 < tdb_lock_type_off_range :=
  (lock_regions_apart (TDB_HASH_LOCK_START + TDB_HASH_LOCK_RANGE - 1) (by decide)
    (by decide)).2.2.2.2.2.2.2.2.2.2.2.2.2.2

/-! ## `external-transaction.c` -/

/-- C15: `external_agent_transaction` reports an error result of the agent as
true. For `res = -1` (the agent could not open the database), `-2` and `-3`
the check `res > 1` lets the value through and the conversion of the `int` to
`bool` gives true; only the results 1 (success) and 0 (contention) are
told apart, as true and false. -/
theorem agent_error_reported_as_true :
    external_agent_transaction true true (-1) = .ok true
      ∧ external_agent_transaction true true (-2) = .ok true
      ∧ external_agent_transaction true true (-3) = .ok true
      ∧ external_agent_transaction true true 1 = .ok true
      ∧ external_agent_transaction true true 0 = .ok false
      ∧ do_transaction false true true true 0 = -1 :=
  ⟨rfl, rfl, rfl, rfl, rfl, rfl⟩

/-- C16: the result of `do_transaction` is 1 exactly when open, start, store
and commit all succeed; it is 0 only if the alarm flag is set and start or
commit failed; otherwise it is negative: -1 when open fails, -2 when open and
start succeed and store fails, -3 when the alarm flag is clear and start
fails, or start and store succeed and commit fails. The result is always one
of 1, 0 and a negative value, and never two of them. -/
theorem do_transaction_result (open_ok start_ok store_ok commit_ok : Bool) (alarmed : Int) :
    (do_transaction open_ok start_ok store_ok commit_ok alarmed = 1
        ↔ open_ok = true ∧ start_ok = true ∧ store_ok = true ∧ commit_ok = true)
      ∧ (do_transaction open_ok start_ok store_ok commit_ok alarmed = 0
        → alarmed ≠ 0 ∧ (start_ok = false ∨ commit_ok = false))
      ∧ (do_transaction open_ok start_ok store_ok commit_ok alarmed ≠ 1
        → do_transaction open_ok start_ok store_ok commit_ok alarmed ≠ 0
        → do_transaction open_ok start_ok store_ok commit_ok alarmed < 0)
      ∧ (open_ok = false
        → do_transaction open_ok start_ok store_ok commit_ok alarmed = -1)
      ∧ (open_ok = true → start_ok = true → store_ok = false
        → do_transaction open_ok start_ok store_ok commit_ok alarmed = -2)
      ∧ (open_ok = true → alarmed = 0
        → start_ok = false ∨ (store_ok = true ∧ commit_ok = false)
        → do_transaction open_ok start_ok store_ok commit_ok alarmed = -3)
      ∧ (open_ok = true → alarmed ≠ 0
        → start_ok = false ∨ (store_ok = true ∧ commit_ok = false)
        → do_transaction open_ok start_ok store_ok commit_ok alarmed = 0)
      ∧ (do_transaction open_ok start_ok store_ok commit_ok alarmed = 1
        ∨ do_transaction open_ok start_ok store_ok commit_ok alarmed = 0
        ∨ do_transaction open_ok start_ok store_ok commit_ok alarmed < 0)
      ∧ ¬ (do_transaction open_ok start_ok store_ok commit_ok alarmed = 1
        ∧ do_transaction open_ok start_ok store_ok commit_ok alarmed = 0)
      ∧ ¬ (do_transaction open_ok start_ok store_ok commit_ok alarmed = 1
        ∧ do_transaction open_ok start_ok store_ok commit_ok alarmed < 0)
      ∧ ¬ (do_transaction open_ok start_ok store_ok commit_ok alarmed = 0
        ∧ do_transaction open_ok start_ok store_ok commit_ok alarmed < 0) := by
  unfold do_transaction
  by_cases ha : alarmed = 0 <;>
    cases open_ok <;> cases start_ok <;> cases store_ok <;> cases commit_ok <;>
    simp [ha]
/-- Witness of C16: when open, start, store and commit all succeed the result
is 1, whatever the alarm flag. -/
theorem do_transaction_result_witness : do_transaction true true true true 5 = 1 :=
  (do_transaction_result true true true true 5).1.2 ⟨rfl, rfl, rfl, rfl⟩
/-! ## Sums of the first lengths of a list -/

/-- The sum of the first `i + 1` values is the sum of the first `i` plus value `i`. -/
theorem psum_succ {α : Type} (f : α → Nat) :
    ∀ (es : List α) (i : Nat) (e : α), es[i]? = some e →
      ((es.take (i + 1)).map f).sum = ((es.take i).map f).sum + f e := by
  intro es
  induction es with
  | nil => intro i e h; simp at h
  | cons x xs ih =>
    intro i e h
    cases i with
    | zero =>
      simp at h
      subst h
      simp
    | succ i =>
      simp at h
      have := ih i e h
      simp only [List.take_succ_cons, List.map_cons, List.sum_cons]
      omega

/-- The sum of the first `i` values is at most the sum of all. -/
theorem psum_le_total {α : Type} (f : α → Nat) :
    ∀ (es : List α) (i : Nat), ((es.take i).map f).sum ≤ (es.map f).sum := by
  intro es
  induction es with
  | nil => intro i; simp
  | cons x xs ih =>
    intro i
    cases i with
    | zero => simp
    | succ i =>
      have := ih i
      simp only [List.take_succ_cons, List.map_cons, List.sum_cons]
      omega

/-- The sums of the first values grow with the number of values taken. -/
theorem psum_mono {α : Type} (f : α → Nat) :
    ∀ (es : List α) (i j : Nat), i ≤ j →
      ((es.take i).map f).sum ≤ ((es.take j).map f).sum := by
  intro es
  induction es with
  | nil => intro i j _; simp
  | cons x xs ih =>
    intro i j hij
    cases i with
    | zero => simp
    | succ i =>
      obtain ⟨j1, rfl⟩ : ∃ j1, j = j1 + 1 := ⟨j - 1, by omega⟩
      have := ih i j1 (by omega)
      simp only [List.take_succ_cons, List.map_cons, List.sum_cons]
      omega

/-- Taking at least as many values as there are gives the sum of all. -/
theorem psum_all {α : Type} (f : α → Nat) (es : List α) (i : Nat) (h : es.length ≤ i) :
    ((es.take i).map f).sum = (es.map f).sum := by
  rw [List.take_of_length_le h]

/-- A number below the sum of all values falls into the range of one value. -/
theorem psum_cover {α : Type} (f : α → Nat) :
    ∀ (es : List α) (x : Nat), x < (es.map f).sum →
      ∃ i e, es[i]? = some e ∧ ((es.take i).map f).sum ≤ x
        ∧ x < ((es.take i).map f).sum + f e := by
  intro es
  induction es with
  | nil => intro x h; simp at h
  | cons y ys ih =>
    intro x h
    simp only [List.map_cons, List.sum_cons] at h
    by_cases hx : x < f y
    · exact ⟨0, y, by simp, by simp, by simpa using hx⟩
    · obtain ⟨i, e, h1, h2, h3⟩ := ih (x - f y) (by omega)
      refine ⟨i + 1, e, by simpa using h1, ?_, ?_⟩
      · simp only [List.take_succ_cons, List.map_cons, List.sum_cons]; omega
      · simp only [List.take_succ_cons, List.map_cons, List.sum_cons]; omega

/-! ## The first pass of `tdb_layout_get` -/

/-- A record that passes the assertion of `data_record_len` has at least the
size of a free record, and the length returned is the length of the element. -/
theorem data_record_len_ok (fsz : Nat) (key data : List Nat) (extra len : Nat)
    (h : data_record_len key data extra = .ok len) :
    sizeof_tdb_free_record ≤ len ∧ len = tdb_layout_elem_len fsz (.DATA key data extra) := by
  unfold data_record_len at h
  dsimp only at h
  split at h
  · next hge =>
    injection h with h
    subst h
    exact ⟨hge, rfl⟩
  · cases h

/-- The length that the body of the first loop returns is the length of the
element, and `flist_off` either stays or, at a FREELIST element met with
`flist_off = 0`, becomes the offset. -/
theorem first_elem_ok (fsz : Nat) (e : tdb_layout_elem) (off fl len fl1 : Nat)
    (h : tdb_layout_get_first_elem fsz e off fl = .ok (len, fl1)) :
    len = tdb_layout_elem_len fsz e
      ∧ ((tdb_layout_elem_is_freelist e = false ∧ fl1 = fl)
        ∨ (e = .FREELIST ∧ fl = 0 ∧ fl1 = off)) := by
  cases e with
  | FREELIST =>
    unfold tdb_layout_get_first_elem at h
    dsimp only at h
    split at h
    · next h0 =>
      injection h with h
      injection h with h1 h2
      exact ⟨h1.symm, Or.inr ⟨rfl, h0, h2.symm⟩⟩
    · cases h
  | FREE l =>
    unfold tdb_layout_get_first_elem at h
    injection h with h
    injection h with h1 h2
    exact ⟨h1.symm, Or.inl ⟨rfl, h2.symm⟩⟩
  | DATA key data extra =>
    unfold tdb_layout_get_first_elem at h
    dsimp only at h
    cases hd : data_record_len key data extra with
    | error x => rw [hd] at h; cases h
    | ok l =>
      rw [hd] at h
      injection h with h
      injection h with h1 h2
      subst h1
      exact ⟨(data_record_len_ok fsz key data extra l hd).2, Or.inl ⟨rfl, h2.symm⟩⟩
  | HASHTABLE x =>
    unfold tdb_layout_get_first_elem at h
    injection h with h
    injection h with h1 h2
    exact ⟨h1.symm, Or.inl ⟨rfl, h2.symm⟩⟩

/-- Unfolding of the first loop at a non-empty list that it accepts. -/
theorem first_loop_cons_ok (fsz : Nat) (e : tdb_layout_elem) (es : List tdb_layout_elem)
    (off fl : Nat) (offs : List Nat) (o f : Nat)
    (h : tdb_layout_get_first_loop fsz (e :: es) off fl = .ok (offs, o, f)) :
    ∃ len fl1 offs1,
      tdb_layout_get_first_elem fsz e off fl = .ok (len, fl1)
        ∧ tdb_layout_get_first_loop fsz es (add64 off len) fl1 = .ok (offs1, o, f)
        ∧ offs = off :: offs1 := by
  unfold tdb_layout_get_first_loop at h
  cases he : tdb_layout_get_first_elem fsz e off fl with
  | error y => rw [he] at h; cases h
  | ok p =>
    obtain ⟨len, fl1⟩ := p
    rw [he] at h
    dsimp only at h
    cases hr : tdb_layout_get_first_loop fsz es (add64 off len) fl1 with
    | error y => rw [hr] at h; cases h
    | ok q =>
      obtain ⟨offs1, o1, f1⟩ := q
      rw [hr] at h
      dsimp only at h
      injection h with h
      injection h with h1 h2
      injection h2 with h2 h3
      subst h1 h2 h3
      exact ⟨len, fl1, offs1, rfl, hr, rfl⟩

/-- The offsets that the first loop assigns, in closed form and in 64-bit
arithmetic: element `i` gets the start offset plus the lengths of the elements
before it, and the final offset is the start plus all lengths. -/
theorem first_loop_closed (fsz : Nat) :
    ∀ (es : List tdb_layout_elem) (off fl : Nat) (offs : List Nat) (o f : Nat),
      off < 2 ^ 64 → tdb_layout_get_first_loop fsz es off fl = .ok (offs, o, f) →
      offs.length = es.length
        ∧ o = (off + (es.map (tdb_layout_elem_len fsz)).sum) % 2 ^ 64
        ∧ ∀ i, i < es.length →
            offs[i]? = some
              ((off + ((es.take i).map (tdb_layout_elem_len fsz)).sum) % 2 ^ 64) := by
  intro es
  induction es with
  | nil =>
    intro off fl offs o f hoff h
    unfold tdb_layout_get_first_loop at h
    injection h with h
    injection h with h1 h2
    injection h2 with h2 h3
    subst h1 h2
    refine ⟨rfl, ?_, ?_⟩
    · simp only [List.map_nil, List.sum_nil]; omega
    · intro i hi; simp at hi
  | cons e es ih =>
    intro off fl offs o f hoff h
    obtain ⟨len, fl1, offs1, he, hr, rfl⟩ := first_loop_cons_ok fsz e es off fl offs o f h
    have hlen := (first_elem_ok fsz e off fl len fl1 he).1
    obtain ⟨h1, h2, h3⟩ := ih (add64 off len) fl1 offs1 o f (by unfold add64; omega) hr
    refine ⟨by simp [h1], ?_, ?_⟩
    · rw [h2]
      simp only [List.map_cons, List.sum_cons]
      unfold add64
      rw [← hlen]; omega
    · intro i hi
      cases i with
      | zero =>
        simp only [List.take_zero, List.map_nil, List.sum_nil, List.getElem?_cons_zero]
        congr 1; omega
      | succ i =>
        simp only [List.getElem?_cons_succ, List.take_succ_cons, List.map_cons, List.sum_cons]
        rw [h3 i (by simpa using hi)]
        unfold add64
        rw [← hlen]
        congr 1; omega

/-- The first pass is the first loop from the end of the header with no free
list yet, and it ends with a free list offset that is not 0. -/
theorem first_pass_ok (fsz : Nat) (layout : List tdb_layout_elem) (offs : List Nat)
    (o f : Nat) (h : tdb_layout_get_first_pass fsz layout = .ok (offs, o, f)) :
    tdb_layout_get_first_loop fsz layout sizeof_tdb_header 0 = .ok (offs, o, f) ∧ f ≠ 0 := by
  unfold tdb_layout_get_first_pass at h
  cases hr : tdb_layout_get_first_loop fsz layout sizeof_tdb_header 0 with
  | error y => rw [hr] at h; cases h
  | ok q =>
    obtain ⟨offs1, o1, f1⟩ := q
    rw [hr] at h
    dsimp only at h
    by_cases hf : f1 ≠ 0
    · rw [if_pos hf] at h
      injection h with h
      injection h with h1 h2
      injection h2 with h2 h3
      subst h1 h2 h3
      exact ⟨rfl, hf⟩
    · rw [if_neg hf] at h
      cases h
/-- The first pass alone accepts a layout with a FREE element of length 0, to
which it gives `free_record_len 0 = 16` bytes: `free_record_len` makes no
check. The run stops in the last loop, where `add_free_record` is given the
16 bytes. -/
theorem short_free_record_stopped :
    tdb_layout_get_first_pass 464 [.FREELIST, .FREE 0] = .ok ([8504, 8968], 8984, 8504)
      ∧ free_record_len 0 = 16
      ∧ tdb_layout_get_fill (fun t _ _ => t) [(.FREELIST, 8504), (.FREE 0, 8968)]
          (blank_tdb (fun _ _ => 0)) = .error .assertion :=
  ⟨rfl, by decide, rfl⟩

/-- C13, as the code has it. For a layout that the first pass accepts, the
first element lies at `sizeof(struct tdb_header)`, each further element lies
at the offset of the one before plus its length, and `map_size` is the offset
of the last element plus its length, all in 64-bit arithmetic. If the size of
the header plus all lengths is below `2^64`, these sums do not wrap, and then:
every region starts at or after the end of the header and ends at or before
`map_size`; the region of an earlier element ends at or before the start of
any later one, so the regions are disjoint and in list order; and every byte
of `[sizeof(struct tdb_header), map_size)` lies in the region of an element. -/
theorem layout_tiles_file (fsz : Nat) (layout : List tdb_layout_elem) (offs : List Nat)
    (map_size flist_off : Nat)
    (hacc : tdb_layout_get_first_pass fsz layout = .ok (offs, map_size, flist_off)) :
    offs.length = layout.length
      ∧ (∀ e, layout[0]? = some e → offs[0]? = some sizeof_tdb_header)
      ∧ (∀ (i : Nat) e (o o1 : Nat), layout[i]? = some e → offs[i]? = some o → offs[i + 1]? = some o1 →
          o1 = add64 o (tdb_layout_elem_len fsz e))
      ∧ (∀ (i : Nat) e (o : Nat), layout[i]? = some e → offs[i]? = some o → i + 1 = layout.length →
          map_size = add64 o (tdb_layout_elem_len fsz e))
      ∧ (sizeof_tdb_header + (layout.map (tdb_layout_elem_len fsz)).sum < 2 ^ 64 →
          (∀ (i : Nat) e (o : Nat), layout[i]? = some e → offs[i]? = some o →
            sizeof_tdb_header ≤ o
              ∧ add64 o (tdb_layout_elem_len fsz e) = o + tdb_layout_elem_len fsz e
              ∧ o + tdb_layout_elem_len fsz e ≤ map_size)
          ∧ (∀ (i j : Nat) ei (oi oj : Nat), i < j → layout[i]? = some ei → offs[i]? = some oi →
              offs[j]? = some oj → oi + tdb_layout_elem_len fsz ei ≤ oj)
          ∧ (∀ a, sizeof_tdb_header ≤ a → a < map_size →
              ∃ (i : Nat) (e : tdb_layout_elem) (o : Nat),
                layout[i]? = some e ∧ offs[i]? = some o ∧ o ≤ a
                ∧ a < o + tdb_layout_elem_len fsz e)) := by
  have hl := (first_pass_ok fsz layout offs map_size flist_off hacc).1
  obtain ⟨hlen, hms, hcl⟩ := first_loop_closed fsz layout sizeof_tdb_header 0 offs map_size
    flist_off (by decide) hl
  have hidx : ∀ i e, layout[i]? = some e → i < layout.length := by
    intro i e h
    exact (List.getElem?_eq_some.1 h).1
  have hoff : ∀ i e o, layout[i]? = some e → offs[i]? = some o →
      o = (sizeof_tdb_header
        + ((layout.take i).map (tdb_layout_elem_len fsz)).sum) % 2 ^ 64 := by
    intro i e o h1 h2
    rw [hcl i (hidx i e h1)] at h2
    injection h2 with h2
    exact h2.symm
  refine ⟨hlen, ?_, ?_, ?_, ?_⟩
  · intro e he
    rw [hcl 0 (hidx 0 e he)]
    simp only [List.take_zero, List.map_nil, List.sum_nil]
    rfl
  · intro i e o o1 he ho ho1
    have hi1 : i + 1 < layout.length := by
      have := (List.getElem?_eq_some.1 ho1).1
      omega
    rw [hcl (i + 1) hi1] at ho1
    injection ho1 with ho1
    rw [← ho1, hoff i e o he ho, psum_succ _ layout i e he]
    unfold add64
    omega
  · intro i e o he ho hlast
    rw [hms, hoff i e o he ho, ← psum_all (tdb_layout_elem_len fsz) layout (i + 1) (by omega),
      psum_succ _ layout i e he]
    unfold add64
    omega
  · intro hsum
    have hexact : ∀ i e o, layout[i]? = some e → offs[i]? = some o →
        o = sizeof_tdb_header + ((layout.take i).map (tdb_layout_elem_len fsz)).sum := by
      intro i e o h1 h2
      have := psum_le_total (tdb_layout_elem_len fsz) layout i
      rw [hoff i e o h1 h2]
      exact Nat.mod_eq_of_lt (by omega)
    have hmsx : map_size
        = sizeof_tdb_header + (layout.map (tdb_layout_elem_len fsz)).sum := by
      rw [hms]; exact Nat.mod_eq_of_lt hsum
    refine ⟨?_, ?_, ?_⟩
    · intro i e o he ho
      have h1 := hexact i e o he ho
      have h2 := psum_succ (tdb_layout_elem_len fsz) layout i e he
      have h3 := psum_le_total (tdb_layout_elem_len fsz) layout (i + 1)
      unfold add64
      omega
    · intro i j ei oi oj hij hei hoi hoj
      have hj : j < layout.length := by
        have := (List.getElem?_eq_some.1 hoj).1
        omega
      have h1 := hexact i ei oi hei hoi
      rw [hcl j hj] at hoj
      injection hoj with hoj
      have h2 := psum_succ (tdb_layout_elem_len fsz) layout i ei hei
      have h3 := psum_mono (tdb_layout_elem_len fsz) layout (i + 1) j (by omega)
      have h4 := psum_le_total (tdb_layout_elem_len fsz) layout j
      rw [Nat.mod_eq_of_lt (by omega)] at hoj
      omega
    · intro a ha1 ha2
      obtain ⟨i, e, he, h1, h2⟩ := psum_cover (tdb_layout_elem_len fsz) layout
        (a - sizeof_tdb_header) (by omega)
      have h3 := psum_le_total (tdb_layout_elem_len fsz) layout i
      refine ⟨i, e, _, he, hcl i (hidx i e he), ?_, ?_⟩
      · rw [Nat.mod_eq_of_lt (by omega)]; omega
      · rw [Nat.mod_eq_of_lt (by omega)]; omega

/-- Witness of C13 as amended: a free list of 464 bytes, a record of 40 bytes
and a free record of 32 bytes; the record follows the free list at 8968 and
ends where the free record starts. -/
theorem layout_tiles_file_witness :
    add64 8968 (tdb_layout_elem_len 464 (.DATA [1] (List.replicate 16 0) 7))
        = 8968 + tdb_layout_elem_len 464 (.DATA [1] (List.replicate 16 0) 7)
      ∧ 8968 + tdb_layout_elem_len 464 (.DATA [1] (List.replicate 16 0) 7) ≤ 9008 :=
  have h := (layout_tiles_file 464
    [.FREELIST, .DATA [1] (List.replicate 16 0) 7, .FREE 16] [8504, 8968, 9008] 9040 8504
    rfl).2.2.2.2 (by decide)
  have h1 := h.1 1 (.DATA [1] (List.replicate 16 0) 7) 8968 rfl rfl
  have h2 := h.2.1 1 2 (.DATA [1] (List.replicate 16 0) 7) 8968 9008 (by decide) rfl rfl rfl
  ⟨h1.2.1, h2⟩

/-- C13 fails on a layout that the first pass accepts: a free list of 464
bytes at 8504, a free record of length `2^64 - 480` at 8968, and a record of
33 bytes. The offset after the free record wraps to 8504, so the record gets
the offset of the free list: the third offset is not the second plus the
length of the second element, the regions of the first and the third element
both hold the byte 8504, and `map_size` is 8537, before the second element. -/
theorem layout_wraps_around :
    tdb_layout_get_first_pass 464
        [.FREELIST, .FREE (2 ^ 64 - 480), .DATA [0] (List.replicate 16 0) 0]
        = .ok ([8504, 8968, 8504], 8537, 8504)
      ∧ 8504 ≠ 8968 + tdb_layout_elem_len 464 (.FREE (2 ^ 64 - 480))
      ∧ (8504 ≤ 8504 ∧ 8504 < 8504 + tdb_layout_elem_len 464 .FREELIST)
      ∧ (8504 ≤ 8504
        ∧ 8504 < 8504 + tdb_layout_elem_len 464 (.DATA [0] (List.replicate 16 0) 0))
      ∧ 8537 < 8968 :=
  ⟨rfl, by decide, by decide, by decide, by decide⟩
/-! ## `set_data_record` -/

/-- A word written at `off` is read back from `off`, reduced to 64 bits. -/
theorem read_write_mod (m : Mem) (off v : Nat) :
    tdb_read_off (tdb_write_off m off v) off = v % 2 ^ 64 := by
  unfold tdb_read_off tdb_write_off
  have c0 : off ≤ off ∧ off < off + 8 := by omega
  have c1 : off ≤ off + 1 ∧ off + 1 < off + 8 := by omega
  have c2 : off ≤ off + 2 ∧ off + 2 < off + 8 := by omega
  have c3 : off ≤ off + 3 ∧ off + 3 < off + 8 := by omega
  have c4 : off ≤ off + 4 ∧ off + 4 < off + 8 := by omega
  have c5 : off ≤ off + 5 ∧ off + 5 < off + 8 := by omega
  have c6 : off ≤ off + 6 ∧ off + 6 < off + 8 := by omega
  have c7 : off ≤ off + 7 ∧ off + 7 < off + 8 := by omega
  simp only [if_pos c0, if_pos c1, if_pos c2, if_pos c3, if_pos c4, if_pos c5, if_pos c6,
    if_pos c7, Nat.sub_self, Nat.add_sub_cancel_left, Nat.mul_zero, Nat.shiftRight_zero]
  omega

/-- Two memories that agree on the eight bytes at `off` hold the same word there. -/
theorem read_congr (m1 m2 : Mem) (off : Nat)
    (h : ∀ a, off ≤ a → a < off + 8 → m1 a = m2 a) :
    tdb_read_off m1 off = tdb_read_off m2 off := by
  unfold tdb_read_off
  rw [h off (by omega) (by omega), h (off + 1) (by omega) (by omega),
    h (off + 2) (by omega) (by omega), h (off + 3) (by omega) (by omega),
    h (off + 4) (by omega) (by omega), h (off + 5) (by omega) (by omega),
    h (off + 6) (by omega) (by omega), h (off + 7) (by omega) (by omega)]

/-- A byte inside the copied range is the byte of the source. -/
theorem memcpy_in (m : Mem) (dst : Nat) (src : List Nat) (a : Nat)
    (h : dst ≤ a ∧ a < dst + src.length) : memcpy m dst src a = src.getD (a - dst) 0 := by
  unfold memcpy
  rw [if_pos h]

/-- A byte outside the copied range is unchanged. -/
theorem memcpy_out (m : Mem) (dst : Nat) (src : List Nat) (a : Nat)
    (h : ¬ (dst ≤ a ∧ a < dst + src.length)) : memcpy m dst src a = m a := by
  unfold memcpy
  rw [if_neg h]

/-- C14, as the code has it. For a DATA element with a key of `k` bytes, a
value of `d` bytes and a padding `x` that passes the assertion of
`data_record_len`, if `16 + k + d + x` is below `2^64` then `set_data_record`
at offset `off` stores the header that `set_header` builds from the key
length `k`, the data length `d` and the total length `k + d + x` in the two
words at `off` and `off + 8`, the key bytes at `[off+16, off+16+k)` and the
value bytes at `[off+16+k, off+16+k+d)`, and changes no byte outside
`[off, off + data_record_len)`. -/
theorem set_data_record_placement (pack : Nat → Nat → Nat → Nat → tdb_used_record)
    (tdb : tdb_context) (off : Nat) (key data : List Nat) (extra len : Nat)
    (hlen : data_record_len key data extra = .ok len)
    (hsum : sizeof_tdb_used_record + key.length + data.length + extra < 2 ^ 64) :
    add64 (add64 key.length data.length) extra = key.length + data.length + extra
      ∧ len = sizeof_tdb_used_record + key.length + data.length + extra
      ∧ tdb_read_off (set_data_record pack tdb off key data extra).map off
          = (pack key.length data.length (key.length + data.length + extra)
              (tdb_hash tdb key)).magic_and_meta % 2 ^ 64
      ∧ tdb_read_off (set_data_record pack tdb off key data extra).map (off + 8)
          = (pack key.length data.length (key.length + data.length + extra)
              (tdb_hash tdb key)).key_and_data_len % 2 ^ 64
      ∧ (∀ j, j < key.length →
          (set_data_record pack tdb off key data extra).map (off + 16 + j) = key.getD j 0)
      ∧ (∀ j, j < data.length →
          (set_data_record pack tdb off key data extra).map (off + 16 + key.length + j)
            = data.getD j 0)
      ∧ (∀ a, ¬ (off ≤ a ∧ a < off + len) →
          (set_data_record pack tdb off key data extra).map a = tdb.map a) := by
  have h16 : sizeof_tdb_used_record = 16 := rfl
  rw [h16] at hsum
  have htot : add64 (add64 key.length data.length) extra
      = key.length + data.length + extra := by
    unfold add64; omega
  have hl : len = 16 + key.length + data.length + extra := by
    have h1 := (data_record_len_ok 0 key data extra len hlen).2
    have h2 : tdb_layout_elem_len 0 (.DATA key data extra)
        = add64 (add64 (add64 16 key.length) data.length) extra := rfl
    rw [h1, h2]
    unfold add64; omega
  have hmap : ∀ a, (set_data_record pack tdb off key data extra).map a
      = memcpy (memcpy (set_header pack tdb.map off key.length data.length
          (key.length + data.length + extra) (tdb_hash tdb key)) (off + 16) key)
          (off + 16 + key.length) data a := by
    intro a
    unfold set_data_record
    rw [htot, h16]
  have hhdr : ∀ a, a < off + 16 →
      (set_data_record pack tdb off key data extra).map a
        = set_header pack tdb.map off key.length data.length
            (key.length + data.length + extra) (tdb_hash tdb key) a := by
    intro a ha
    rw [hmap, memcpy_out _ _ _ _ (by omega), memcpy_out _ _ _ _ (by omega)]
  refine ⟨htot, by rw [h16]; exact hl, ?_, ?_, ?_, ?_, ?_⟩
  · rw [read_congr _ _ off (fun a _ h2 => hhdr a (by omega))]
    unfold set_header
    rw [read_write_other _ _ _ off (by omega), read_write_mod]
  · rw [read_congr _ _ (off + 8) (fun a _ h2 => hhdr a (by omega))]
    unfold set_header
    rw [read_write_mod]
  · intro j hj
    rw [hmap, memcpy_out _ _ _ _ (by omega), memcpy_in _ _ _ _ (by omega)]
    congr 1; omega
  · intro j hj
    rw [hmap, memcpy_in _ _ _ _ (by omega)]
    congr 1; omega
  · intro a ha
    rw [hmap, memcpy_out _ _ _ _ (by omega), memcpy_out _ _ _ _ (by omega)]
    unfold set_header
    rw [write_frame _ _ _ a (by omega), write_frame _ _ _ a (by omega)]

/-- Witness of C14 as amended: a record with the key `[7]`, a value of 16
bytes and 7 bytes of padding, 40 bytes in all, written at 8968. -/
theorem set_data_record_placement_witness :
    (set_data_record (fun _ _ _ _ => ⟨0, 0⟩) (blank_tdb (fun _ _ => 0)) 8968 [7]
        (List.replicate 16 1) 7).map (8968 + 16 + 0) = [7].getD 0 0
      ∧ ∀ a, ¬ (8968 ≤ a ∧ a < 8968 + 40) →
          (set_data_record (fun _ _ _ _ => ⟨0, 0⟩) (blank_tdb (fun _ _ => 0)) 8968 [7]
            (List.replicate 16 1) 7).map a = (blank_tdb (fun _ _ => 0)).map a :=
  have h := set_data_record_placement (fun _ _ _ _ => ⟨0, 0⟩) (blank_tdb (fun _ _ => 0))
    8968 [7] (List.replicate 16 1) 7 40 rfl (by decide)
  ⟨h.2.2.2.2.1 0 (by decide), h.2.2.2.2.2.2⟩

/-- C14 fails for a record that passes the assertion of `data_record_len`: with
a key of 1 byte, a value of 16 bytes and a padding of `2^64 - 1`, the length
`16 + 1 + 16 + (2^64 - 1)` wraps to 32, so the region of the element at 8504
is `[8504, 8536)`, but the last byte of the value is stored at 8536. -/
theorem set_data_record_writes_past_region :
    data_record_len [7] (List.replicate 16 1) (2 ^ 64 - 1) = .ok 32
      ∧ ¬ (8504 ≤ 8536 ∧ 8536 < 8504 + 32)
      ∧ (blank_tdb (fun _ _ => 0)).map 8536 = 0
      ∧ (set_data_record (fun _ _ _ _ => ⟨0, 0⟩) (blank_tdb (fun _ _ => 0)) 8504 [7]
          (List.replicate 16 1) (2 ^ 64 - 1)).map 8536 = 1 :=
  ⟨rfl, by decide, rfl, by decide⟩
/-! ## The free list assertions of `tdb_layout_get` -/

/-- Unfolding of the first loop at a non-empty list that it rejects. -/
theorem first_loop_cons_error (fsz : Nat) (e : tdb_layout_elem) (es : List tdb_layout_elem)
    (off fl : Nat) (x : Fault)
    (h : tdb_layout_get_first_loop fsz (e :: es) off fl = .error x) :
    tdb_layout_get_first_elem fsz e off fl = .error x
      ∨ ∃ len fl1, tdb_layout_get_first_elem fsz e off fl = .ok (len, fl1)
          ∧ tdb_layout_get_first_loop fsz es (add64 off len) fl1 = .error x := by
  unfold tdb_layout_get_first_loop at h
  cases he : tdb_layout_get_first_elem fsz e off fl with
  | error y =>
    rw [he] at h
    injection h with h
    subst h
    exact Or.inl rfl
  | ok p =>
    obtain ⟨len, fl1⟩ := p
    rw [he] at h
    dsimp only at h
    cases hr : tdb_layout_get_first_loop fsz es (add64 off len) fl1 with
    | error y =>
      rw [hr] at h
      injection h with h
      subst h
      exact Or.inr ⟨len, fl1, rfl, hr⟩
    | ok q =>
      obtain ⟨offs1, o1, f1⟩ := q
      rw [hr] at h
      cases h

/-- An element that is no free list, and whose record length passes the
assertion if it is a record, is accepted and leaves `flist_off` as it is. -/
theorem first_elem_other (fsz : Nat) (e : tdb_layout_elem) (off fl : Nat)
    (hne : tdb_layout_elem_is_freelist e = false)
    (hdata : ∀ key data extra, e = .DATA key data extra →
      ∃ len, data_record_len key data extra = .ok len) :
    tdb_layout_get_first_elem fsz e off fl = .ok (tdb_layout_elem_len fsz e, fl) := by
  cases e with
  | FREELIST => cases hne
  | FREE l => rfl
  | DATA key data extra =>
    obtain ⟨len, hl⟩ := hdata key data extra rfl
    have h2 := (data_record_len_ok fsz key data extra len hl).2
    unfold tdb_layout_get_first_elem
    dsimp only
    rw [hl, h2]
  | HASHTABLE x => rfl

/-- What the first loop does with the free lists of a list of elements whose
record lengths pass their assertion, started at an offset that is not 0 and
from which the lengths do not wrap. Started with a free list offset, it
returns exactly when there is no FREELIST element, and keeps the offset.
Started without one, it returns without one when there is no FREELIST
element, returns with the offset of the FREELIST element when there is
exactly one, and stops when there are two or more. -/
theorem first_loop_freelists (fsz : Nat) :
    ∀ (es : List tdb_layout_elem) (off fl : Nat), 0 < off →
      off + (es.map (tdb_layout_elem_len fsz)).sum < 2 ^ 64 →
      (∀ key data extra, tdb_layout_elem.DATA key data extra ∈ es →
        ∃ len, data_record_len key data extra = .ok len) →
      (∀ offs o f, tdb_layout_get_first_loop fsz es off fl = .ok (offs, o, f) →
        (fl ≠ 0 → es.countP tdb_layout_elem_is_freelist = 0 ∧ f = fl)
          ∧ (fl = 0 → (es.countP tdb_layout_elem_is_freelist = 0 ∧ f = 0)
            ∨ (es.countP tdb_layout_elem_is_freelist = 1 ∧ f ≠ 0
              ∧ ∃ i : Nat, es[i]? = some .FREELIST ∧ offs[i]? = some f)))
        ∧ (∀ x, tdb_layout_get_first_loop fsz es off fl = .error x →
          (fl ≠ 0 → 1 ≤ es.countP tdb_layout_elem_is_freelist)
            ∧ (fl = 0 → 2 ≤ es.countP tdb_layout_elem_is_freelist)) := by
  intro es
  induction es with
  | nil =>
    intro off fl _ _ _
    constructor
    · intro offs o f h
      unfold tdb_layout_get_first_loop at h
      injection h with h
      injection h with h1 h2
      injection h2 with h2 h3
      subst h3
      exact ⟨fun _ => ⟨rfl, rfl⟩, fun h0 => Or.inl ⟨rfl, h0⟩⟩
    · intro x h
      unfold tdb_layout_get_first_loop at h
      cases h
  | cons e es ih =>
    intro off fl hoff hsum hdata
    simp only [List.map_cons, List.sum_cons] at hsum
    have hdata1 : ∀ key data extra, tdb_layout_elem.DATA key data extra ∈ es →
        ∃ len, data_record_len key data extra = .ok len :=
      fun key data extra hm => hdata key data extra (List.mem_cons_of_mem _ hm)
    by_cases hfe : tdb_layout_elem_is_freelist e = true
    · -- a FREELIST element
      have hE : e = .FREELIST := by
        cases e with
        | FREELIST => rfl
        | FREE l => cases hfe
        | DATA key data extra => cases hfe
        | HASHTABLE x => cases hfe
      subst hE
      have hcnt : (tdb_layout_elem.FREELIST :: es).countP tdb_layout_elem_is_freelist
          = es.countP tdb_layout_elem_is_freelist + 1 := by
        rw [List.countP_cons_of_pos _ _ hfe]
      have hlenF : tdb_layout_elem_len fsz .FREELIST = fsz := rfl
      rw [hlenF] at hsum
      by_cases hfl : fl = 0
      · subst hfl
        have hel : tdb_layout_get_first_elem fsz .FREELIST off 0 = .ok (fsz, off) := rfl
        have hIH := ih (add64 off fsz) off (by unfold add64; omega)
          (by unfold add64; omega) hdata1
        constructor
        · intro offs o f h
          obtain ⟨len, fl1, offs1, he, hr, rfl⟩ :=
            first_loop_cons_ok fsz _ es off 0 offs o f h
          rw [hel] at he
          injection he with he
          injection he with he1 he2
          subst he1 he2
          obtain ⟨h1, h2⟩ := (hIH.1 offs1 o f hr).1 (by omega)
          refine ⟨fun hc => absurd rfl hc, fun _ => Or.inr ⟨by rw [hcnt, h1], by omega, ?_⟩⟩
          exact ⟨0, by simp, by simp [h2]⟩
        · intro x h
          rcases first_loop_cons_error fsz _ es off 0 x h with he | ⟨len, fl1, he, hr⟩
          · rw [hel] at he
            cases he
          · rw [hel] at he
            injection he with he
            injection he with he1 he2
            subst he1 he2
            have := (hIH.2 x hr).1 (by omega)
            exact ⟨fun hc => absurd rfl hc, fun _ => by rw [hcnt]; omega⟩
      · have hel : tdb_layout_get_first_elem fsz .FREELIST off fl = .error .assertion := by
          unfold tdb_layout_get_first_elem
          dsimp only
          rw [if_neg hfl]
        constructor
        · intro offs o f h
          obtain ⟨len, fl1, offs1, he, _, _⟩ := first_loop_cons_ok fsz _ es off fl offs o f h
          rw [hel] at he
          cases he
        · intro x _
          exact ⟨fun _ => by rw [hcnt]; omega, fun h0 => absurd h0 hfl⟩
    · -- any other element
      have hne : tdb_layout_elem_is_freelist e = false := by
        cases hb : tdb_layout_elem_is_freelist e with
        | true => exact absurd hb hfe
        | false => rfl
      have hcnt : (e :: es).countP tdb_layout_elem_is_freelist
          = es.countP tdb_layout_elem_is_freelist :=
        List.countP_cons_of_neg _ _ hfe
      have hel := first_elem_other fsz e off fl hne
        (fun key data extra hE => hdata key data extra (by rw [hE]; exact List.mem_cons_self _ _))
      have hIH := ih (add64 off (tdb_layout_elem_len fsz e)) fl (by unfold add64; omega)
        (by unfold add64; omega) hdata1
      constructor
      · intro offs o f h
        obtain ⟨len, fl1, offs1, he, hr, rfl⟩ :=
          first_loop_cons_ok fsz e es off fl offs o f h
        rw [hel] at he
        injection he with he
        injection he with he1 he2
        subst he1 he2
        obtain ⟨h1, h2⟩ := hIH.1 offs1 o f hr
        rw [hcnt]
        refine ⟨h1, fun h0 => ?_⟩
        rcases h2 h0 with h3 | ⟨h3, h4, i, h5, h6⟩
        · exact Or.inl h3
        · exact Or.inr ⟨h3, h4, i + 1, by simpa using h5, by simpa using h6⟩
      · intro x h
        rcases first_loop_cons_error fsz e es off fl x h with he | ⟨len, fl1, he, hr⟩
        · rw [hel] at he
          cases he
        · rw [hel] at he
          injection he with he
          injection he with he1 he2
          subst he1 he2
          rw [hcnt]
          exact hIH.2 x hr

/-- C20, as the code has it. For a layout whose record lengths pass the
assertion of `data_record_len` and whose lengths, added to the size of the
header, stay below `2^64`, the first pass with its two free list assertions
returns exactly when the layout has exactly one FREELIST element; and when it
returns, `flist_off` is not 0 and is the offset given to a FREELIST element. -/
theorem free_list_assertions (fsz : Nat) (layout : List tdb_layout_elem)
    (hdata : ∀ key data extra, tdb_layout_elem.DATA key data extra ∈ layout →
      ∃ len, data_record_len key data extra = .ok len)
    (hsum : sizeof_tdb_header + (layout.map (tdb_layout_elem_len fsz)).sum < 2 ^ 64) :
    ((∃ offs map_size flist_off,
          tdb_layout_get_first_pass fsz layout = .ok (offs, map_size, flist_off))
        ↔ layout.countP tdb_layout_elem_is_freelist = 1)
      ∧ (∀ offs map_size flist_off,
          tdb_layout_get_first_pass fsz layout = .ok (offs, map_size, flist_off) →
          flist_off ≠ 0
            ∧ ∃ i : Nat, layout[i]? = some .FREELIST ∧ offs[i]? = some flist_off) := by
  have hL := first_loop_freelists fsz layout sizeof_tdb_header 0 (by decide) hsum hdata
  have hfwd : ∀ offs map_size flist_off,
      tdb_layout_get_first_pass fsz layout = .ok (offs, map_size, flist_off) →
      layout.countP tdb_layout_elem_is_freelist = 1 ∧ flist_off ≠ 0
        ∧ ∃ i : Nat, layout[i]? = some .FREELIST ∧ offs[i]? = some flist_off := by
    intro offs map_size flist_off h
    obtain ⟨hl, hf⟩ := first_pass_ok fsz layout offs map_size flist_off h
    rcases (hL.1 offs map_size flist_off hl).2 rfl with h1 | ⟨h1, h2, h3⟩
    · exact absurd h1.2 hf
    · exact ⟨h1, h2, h3⟩
  refine ⟨⟨fun ⟨offs, ms, f, h⟩ => (hfwd offs ms f h).1, fun hc => ?_⟩,
    fun offs ms f h => (hfwd offs ms f h).2⟩
  cases hr : tdb_layout_get_first_loop fsz layout sizeof_tdb_header 0 with
  | error x =>
    have := (hL.2 x hr).2 rfl
    omega
  | ok q =>
    obtain ⟨offs, o, f⟩ := q
    rcases (hL.1 offs o f hr).2 rfl with h1 | ⟨_, h2, _⟩
    · omega
    · refine ⟨offs, o, f, ?_⟩
      unfold tdb_layout_get_first_pass
      rw [hr]
      dsimp only
      rw [if_pos h2]

/-- Witness of C20 as amended: a record of 40 bytes, a free list of 464 bytes
and a free record of 32 bytes; the free list lies at 8544. -/
theorem free_list_assertions_witness :
    8544 ≠ 0
      ∧ ∃ i : Nat,
          [tdb_layout_elem.DATA [1] (List.replicate 16 0) 7, .FREELIST, .FREE 16][i]?
              = some .FREELIST
            ∧ [8504, 8544, 9008][i]? = some 8544 :=
  (free_list_assertions 464 [.DATA [1] (List.replicate 16 0) 7, .FREELIST, .FREE 16]
    (fun key data extra hm => by
      simp only [List.mem_cons, List.mem_singleton, reduceCtorEq, false_or, or_false,
        List.mem_nil_iff, tdb_layout_elem.DATA.injEq] at hm
      obtain ⟨h1, h2, h3⟩ := hm
      subst h1 h2 h3
      exact ⟨40, rfl⟩)
    (by decide)).2 [8504, 8544, 9008] 9040 8544 rfl

/-- C20 fails when the offsets wrap. A free record of length `2^64 - 8520`
at 8504 ends at offset 0, where the one FREELIST element of the layout is
placed: `flist_off` stays 0 and the assertion after the first pass does not
hold, although the layout has exactly one FREELIST element. With a second
FREELIST element after it, at 464, all assertions hold although the layout
has two FREELIST elements. -/
theorem free_list_at_offset_zero :
    [tdb_layout_elem.FREE (2 ^ 64 - 8520), .FREELIST].countP tdb_layout_elem_is_freelist = 1
      ∧ tdb_layout_get_first_loop 464 [.FREE (2 ^ 64 - 8520), .FREELIST] sizeof_tdb_header 0
          = .ok ([8504, 0], 464, 0)
      ∧ tdb_layout_get_first_pass 464 [.FREE (2 ^ 64 - 8520), .FREELIST] = .error .assertion
      ∧ [tdb_layout_elem.FREE (2 ^ 64 - 8520), .FREELIST, .FREELIST].countP
          tdb_layout_elem_is_freelist = 2
      ∧ tdb_layout_get_first_pass 464 [.FREE (2 ^ 64 - 8520), .FREELIST, .FREELIST]
          = .ok ([8504, 0, 464], 928, 464) :=
  ⟨by decide, rfl, rfl, by decide, rfl⟩

/-! ## Free record word, slot fields, length decoders -/

/-- The magic of a free record word is the word with its low 6 bits cleared. -/
theorem frec_magic_eq (w dl nx pv : Nat) :
    frec_magic ⟨w, dl, nx, pv⟩ = ((w >>> 6) % 2 ^ 58) <<< 6 := by
  have hmask : not64 (sub64 (shl64 1 6) 1) = (2 ^ 58 - 1) <<< 6 := by decide
  unfold frec_magic
  dsimp only
  rw [hmask, and_shl_mask]

/-- The zone bits of a free record word are its low 6 bits. -/
theorem frec_zone_bits_eq (w dl nx pv : Nat) : frec_zone_bits ⟨w, dl, nx, pv⟩ = w % 64 := by
  have e63 : (1 <<< 6) - 1 = 63 := by decide
  unfold frec_zone_bits
  dsimp only
  rw [e63, and_63]
  omega

/-- C21: for a 64-bit word `w`, `frec_magic` has its low 6 bits zero,
`frec_zone_bits` is below 64, and the two joined by `|` give `w` back; for a
zone `z < 64`, the words `TDB_FREE_MAGIC | z` and `TDB_COALESCING_MAGIC | z`
have the magic `TDB_FREE_MAGIC` resp. `TDB_COALESCING_MAGIC` and the zone
bits `z`; both constants have their low 6 bits zero. -/
theorem free_word_decomposition (w z dl nx pv : Nat) (hw : w < 2 ^ 64) (hz : z < 64) :
    frec_magic ⟨w, dl, nx, pv⟩ % 2 ^ 6 = 0
      ∧ frec_magic ⟨w, dl, nx, pv⟩ &&& ((1 <<< 6) - 1) = 0
      ∧ frec_zone_bits ⟨w, dl, nx, pv⟩ < 64
      ∧ frec_magic ⟨w, dl, nx, pv⟩ ||| frec_zone_bits ⟨w, dl, nx, pv⟩ = w
      ∧ frec_magic ⟨TDB_FREE_MAGIC ||| z, dl, nx, pv⟩ = TDB_FREE_MAGIC
      ∧ frec_zone_bits ⟨TDB_FREE_MAGIC ||| z, dl, nx, pv⟩ = z
      ∧ frec_magic ⟨TDB_COALESCING_MAGIC ||| z, dl, nx, pv⟩ = TDB_COALESCING_MAGIC
      ∧ frec_zone_bits ⟨TDB_COALESCING_MAGIC ||| z, dl, nx, pv⟩ = z
      ∧ TDB_FREE_MAGIC &&& ((1 <<< 6) - 1) = 0
      ∧ TDB_COALESCING_MAGIC &&& ((1 <<< 6) - 1) = 0 := by
  have hF : TDB_FREE_MAGIC = 18446744073709132160 := by decide
  have hC : TDB_COALESCING_MAGIC = 13146274953935680 := by decide
  have e63 : (1 <<< 6) - 1 = 63 := by decide
  have hFz : TDB_FREE_MAGIC ||| z = TDB_FREE_MAGIC + z := by
    rw [hF]; exact or_eq_add 6 _ z (by decide) hz
  have hCz : TDB_COALESCING_MAGIC ||| z = TDB_COALESCING_MAGIC + z := by
    rw [hC]; exact or_eq_add 6 _ z (by decide) hz
  rw [hFz, hCz, e63]
  simp only [frec_magic_eq, frec_zone_bits_eq, and_63]
  rw [or_eq_add 6 _ (w % 64) (by omega) (by omega), hF, hC]
  refine ⟨by omega, by omega, by omega, by omega, by omega, by omega, by omega, by omega,
    by decide, by decide⟩

/-- Witness of C21 at the word `TDB_FREE_MAGIC | 5` and the zone 5. -/
theorem free_word_decomposition_witness :
    frec_magic ⟨TDB_FREE_MAGIC ||| 5, 0, 0, 0⟩ ||| frec_zone_bits ⟨TDB_FREE_MAGIC ||| 5, 0, 0, 0⟩
        = TDB_FREE_MAGIC ||| 5
      ∧ frec_magic ⟨TDB_FREE_MAGIC ||| 5, 0, 0, 0⟩ = TDB_FREE_MAGIC :=
  have h := free_word_decomposition (TDB_FREE_MAGIC ||| 5) 5 0 0 0 (by decide) (by decide)
  ⟨h.2.2.2.1, h.2.2.2.2.1⟩

/-- C24: the group mask (bits 0..2), the offset mask (bits 3..55), the
truncated bit (bit 56) and the seven bits of the extra hash field from
`TDB_OFF_HASH_EXTRA_BIT` up (bits 57..63) are pairwise disjoint and together
make up all 64 bits; the 8 stolen upper bits are the 7 extra bits and the
truncated bit. -/
theorem slot_fields_partition :
    TDB_OFF_HASH_GROUP_MASK = 2 ^ 3 - 1
      ∧ TDB_OFF_MASK = (2 ^ 53 - 1) <<< 3
      ∧ shl64 1 TDB_OFF_HASH_TRUNCATED_BIT = 2 ^ 56
      ∧ shl64 (sub64 (shl64 1 TDB_OFF_UPPER_STEAL_EXTRA) 1) TDB_OFF_HASH_EXTRA_BIT
          = (2 ^ 7 - 1) <<< 57
      ∧ TDB_OFF_HASH_GROUP_MASK &&& TDB_OFF_MASK = 0
      ∧ TDB_OFF_HASH_GROUP_MASK &&& shl64 1 TDB_OFF_HASH_TRUNCATED_BIT = 0
      ∧ TDB_OFF_HASH_GROUP_MASK
          &&& shl64 (sub64 (shl64 1 TDB_OFF_UPPER_STEAL_EXTRA) 1) TDB_OFF_HASH_EXTRA_BIT = 0
      ∧ TDB_OFF_MASK &&& shl64 1 TDB_OFF_HASH_TRUNCATED_BIT = 0
      ∧ TDB_OFF_MASK
          &&& shl64 (sub64 (shl64 1 TDB_OFF_UPPER_STEAL_EXTRA) 1) TDB_OFF_HASH_EXTRA_BIT = 0
      ∧ shl64 1 TDB_OFF_HASH_TRUNCATED_BIT
          &&& shl64 (sub64 (shl64 1 TDB_OFF_UPPER_STEAL_EXTRA) 1) TDB_OFF_HASH_EXTRA_BIT = 0
      ∧ TDB_OFF_HASH_GROUP_MASK ||| TDB_OFF_MASK ||| shl64 1 TDB_OFF_HASH_TRUNCATED_BIT
          ||| shl64 (sub64 (shl64 1 TDB_OFF_UPPER_STEAL_EXTRA) 1) TDB_OFF_HASH_EXTRA_BIT
          = 2 ^ 64 - 1
      ∧ TDB_OFF_UPPER_STEAL = TDB_OFF_UPPER_STEAL_EXTRA + TDB_OFF_UPPER_STEAL_TRUNCBIT
      ∧ TDB_OFF_HASH_TRUNCATED_BIT = 64 - TDB_OFF_UPPER_STEAL
      ∧ TDB_OFF_HASH_EXTRA_BIT = TDB_OFF_HASH_TRUNCATED_BIT + TDB_OFF_UPPER_STEAL_TRUNCBIT := by
  decide

/-- C25: for every first word, `rec_key_bits` is even and at most 62, hence
below 64, the width of the words that `rec_key_length` and `rec_data_length`
shift by it; and for a 64-bit second word, the key length joined by `|` to
the data length shifted back by `rec_key_bits` is the second word. -/
theorem length_decoders_in_range (r : tdb_used_record) (hkd : r.key_and_data_len < 2 ^ 64) :
    rec_key_bits r % 2 = 0
      ∧ rec_key_bits r ≤ 62
      ∧ rec_key_bits r < 64
      ∧ shl64 1 (rec_key_bits r) = 2 ^ rec_key_bits r
      ∧ rec_key_length r ||| shl64 (rec_data_length r) (rec_key_bits r)
          = r.key_and_data_len := by
  have hb := rec_key_bits_eq r
  have hb62 : rec_key_bits r ≤ 62 := by omega
  unfold rec_key_length rec_data_length
  generalize rec_key_bits r = b at hb hb62
  have heven : b % 2 = 0 := by omega
  clear hb
  have hpos : 0 < 2 ^ b := Nat.two_pow_pos b
  have hp : 2 ^ b < 2 ^ 64 := Nat.pow_lt_pow_right (by decide) (by omega)
  have h1 : shl64 1 b = 2 ^ b := by
    unfold shl64
    rw [Nat.shiftLeft_eq, Nat.one_mul]
    exact Nat.mod_eq_of_lt hp
  have hone : sub64 (shl64 1 b) 1 = 2 ^ b - 1 := by
    rw [h1]; unfold sub64; omega
  have hdiv : 2 ^ b * (r.key_and_data_len / 2 ^ b) ≤ r.key_and_data_len :=
    Nat.mul_div_le _ _
  have hshl : shl64 (r.key_and_data_len >>> b) b = 2 ^ b * (r.key_and_data_len / 2 ^ b) := by
    unfold shl64
    rw [Nat.shiftLeft_eq, Nat.shiftRight_eq_div_pow, Nat.mul_comm]
    exact Nat.mod_eq_of_lt (by omega)
  refine ⟨heven, hb62, by omega, h1, ?_⟩
  rw [hone, Nat.and_pow_two_sub_one_eq_mod, hshl, Nat.lor_comm,
    ← Nat.mul_add_lt_is_or (Nat.mod_lt _ hpos)]
  exact Nat.div_add_mod _ _

/-- Witness of C25 at key width 6 and the second word with all 64 bits set. -/
theorem length_decoders_in_range_witness :
    rec_key_length ⟨shl64 3 43, 2 ^ 64 - 1⟩
        ||| shl64 (rec_data_length ⟨shl64 3 43, 2 ^ 64 - 1⟩)
          (rec_key_bits ⟨shl64 3 43, 2 ^ 64 - 1⟩)
      = 2 ^ 64 - 1 :=
  (length_decoders_in_range ⟨shl64 3 43, 2 ^ 64 - 1⟩ (by decide)).2.2.2.2

/-- C22: the low bits of a stored slot value are the bucket in which the probe
found room, not the home bucket of the key. Two records whose keys hash to 0
(home bucket 0 of group 0) are entered into an empty table: the first goes to
the slot at 312 with the value 8504, the second to the next slot, at 320,
with the value 8545, whose low `TDB_HASH_GROUP_BITS` bits are 1. -/
theorem stored_low_bits_are_found_bucket :
    use_bits (tdb_hash (blank_tdb (fun _ _ => 0)) [1]) TDB_HASH_GROUP_BITS 7 = .ok (0, 10)
      ∧ (tdb_hash (blank_tdb (fun _ _ => 0)) [1] >>> 54) &&& 7 = 0
      ∧ ∃ tdb1, tdb_layout_get_fill (fun t _ _ => t)
            [(.DATA [0] (List.replicate 16 0) 7, 8504),
              (.DATA [1] (List.replicate 16 0) 7, 8544)]
            (blank_tdb (fun _ _ => 0)) = .ok tdb1
        ∧ tdb_read_off tdb1.map 312 = 8504
        ∧ tdb_read_off tdb1.map 320 = 8545
        ∧ tdb_read_off tdb1.map 320 &&& TDB_OFF_HASH_GROUP_MASK = 1 :=
  ⟨rfl, by decide, _, rfl, by decide, by decide, by decide⟩
/-- The two ways in which the probe ends, with `n` iterations left at counter
`i`: either some bucket is empty, and the loop returns the memory with the
encoded value written into the slot of that bucket, that one write being the
only one; or the slots of the counters `i, ..., i + n - 1` are all taken, and
the loop reaches `abort()` without a write. -/
theorem loop_outcome (m : Mem) (eoff h gs ig : Nat) :
    ∀ (n i : Nat),
      (∃ b, b < 8 ∧ tdb_read_off m (hbucket_off gs b) = 0
          ∧ add_to_hashtable_loop m eoff h gs ig n i
            = .ok (tdb_write_off m (hbucket_off gs b)
                (b ||| eoff ||| shl64 ((h >>> 57) % 128) 57))
          ∧ add_to_hashtable_loop_writes m eoff h gs ig n i
            = ([(hbucket_off gs b, b ||| eoff ||| shl64 ((h >>> 57) % 128) 57)], .ok ()))
        ∨ ((∀ j, j < n → tdb_read_off m (hbucket_off gs ((ig + (i + j)) % 8)) ≠ 0)
          ∧ add_to_hashtable_loop m eoff h gs ig n i = .error .aborted
          ∧ add_to_hashtable_loop_writes m eoff h gs ig n i = ([], .error .aborted)) := by
  have e8 : (1 <<< TDB_HASH_GROUP_BITS) = 8 := by decide
  have hb : ∀ i, ((ig + i) % 2 ^ 32) % 8 = (ig + i) % 8 := by intro i; omega
  intro n
  induction n with
  | zero =>
    intro i
    exact Or.inr ⟨fun j hj => absurd hj (Nat.not_lt_zero j), rfl, rfl⟩
  | succ n ih =>
    intro i
    unfold add_to_hashtable_loop add_to_hashtable_loop_writes
    simp only [encode_offset_ok, e8, hb]
    by_cases hz : tdb_read_off m (hbucket_off gs ((ig + i) % 8)) = 0
    · rw [if_pos hz, if_pos hz]
      exact Or.inl ⟨(ig + i) % 8, by omega, hz, rfl, rfl⟩
    · rw [if_neg hz, if_neg hz]
      rcases ih (i + 1) with h1 | ⟨h1, h2, h3⟩
      · exact Or.inl h1
      · refine Or.inr ⟨?_, h2, h3⟩
        intro j hj
        cases j with
        | zero => exact hz
        | succ j =>
          have := h1 j (by omega)
          have e : i + 1 + j = i + (j + 1) := by omega
          rw [e] at this
          exact this

/-- The ways in which `add_to_hashtable` stops, in terms of `hbucket_off`: by
`abort()` exactly when the slots of all 8 buckets of the group are non-zero,
without a write, and otherwise by returning after one write into the slot of
a bucket that was zero. -/
theorem probe_stops (tdb : tdb_context) (eoff : Nat) (key : List Nat)
    (group used in_group used1 : Nat)
    (hg : use_bits (tdb_hash tdb key) (TDB_TOPLEVEL_HASH_BITS - TDB_HASH_GROUP_BITS) 0
      = .ok (group, used))
    (hin : use_bits (tdb_hash tdb key) TDB_HASH_GROUP_BITS used = .ok (in_group, used1)) :
    (add_to_hashtable tdb eoff key = .error .aborted
        ↔ ∀ b, b < 8 →
            tdb_read_off tdb.map (hbucket_off (add_to_hashtable_group_start group) b) ≠ 0)
      ∧ (add_to_hashtable tdb eoff key = .error .aborted →
          add_to_hashtable_writes tdb eoff key = ([], .error .aborted))
      ∧ (∀ x, add_to_hashtable tdb eoff key = .error x → x = .aborted)
      ∧ (add_to_hashtable tdb eoff key ≠ .error .aborted →
          ∃ b v, b < 8
            ∧ tdb_read_off tdb.map (hbucket_off (add_to_hashtable_group_start group) b) = 0
            ∧ encode_offset eoff b (tdb_hash tdb key) = .ok v
            ∧ add_to_hashtable tdb eoff key
              = .ok { tdb with map := (tdb_write_off tdb.map
                  (hbucket_off (add_to_hashtable_group_start group) b) v) }
            ∧ add_to_hashtable_writes tdb eoff key
              = ([(hbucket_off (add_to_hashtable_group_start group) b, v)], .ok ())) := by
  rw [use_bits_group] at hg
  injection hg with hg
  injection hg with hg1 hg2
  subst hg2
  rw [use_bits_in_group] at hin
  injection hin with hin
  injection hin with hin1 hin2
  subst hg1 hin1
  have e8 : (1 <<< TDB_HASH_GROUP_BITS) = 8 := by decide
  have hA : ∀ r, add_to_hashtable_loop tdb.map eoff (tdb_hash tdb key)
        (add_to_hashtable_group_start (tdb_hash tdb key >>> 57 % 128))
        (tdb_hash tdb key >>> 54 % 8) 8 0 = r →
      add_to_hashtable tdb eoff key
        = match r with
          | .ok m => .ok { tdb with map := m }
          | .error e => .error e := by
    intro r hr
    unfold add_to_hashtable
    simp only [use_bits_group, use_bits_in_group, e8]
    rw [hr]
  have hW : add_to_hashtable_writes tdb eoff key
      = add_to_hashtable_loop_writes tdb.map eoff (tdb_hash tdb key)
          (add_to_hashtable_group_start (tdb_hash tdb key >>> 57 % 128))
          (tdb_hash tdb key >>> 54 % 8) 8 0 := by
    unfold add_to_hashtable_writes
    simp only [use_bits_group, use_bits_in_group, e8]
  rcases loop_outcome tdb.map eoff (tdb_hash tdb key)
      (add_to_hashtable_group_start (tdb_hash tdb key >>> 57 % 128))
      (tdb_hash tdb key >>> 54 % 8) 8 0 with ⟨b, hb, hz, hl, hw⟩ | ⟨hfull, hl, hw⟩
  · -- some bucket is empty
    have hok := hA _ hl
    dsimp only at hok
    rw [hW, hw, hok]
    refine ⟨⟨?_, ?_⟩, ?_, ?_, ?_⟩
    · intro h
      cases h
    · intro h
      exact absurd hz (h b hb)
    · intro h
      cases h
    · intro x h
      cases h
    · intro _
      exact ⟨b, _, hb, hz, encode_offset_ok _ _ _, rfl, rfl⟩
  · -- all slots are taken
    have herr := hA _ hl
    dsimp only at herr
    rw [hW, hw, herr]
    refine ⟨⟨?_, ?_⟩, ?_, ?_, ?_⟩
    · intro _ b hb
      have := hfull ((b + 8 - tdb_hash tdb key >>> 54 % 8) % 8) (by omega)
      have e : (tdb_hash tdb key >>> 54 % 8
          + (0 + (b + 8 - tdb_hash tdb key >>> 54 % 8) % 8)) % 8 = b := by omega
      rw [e] at this
      exact this
    · intro _
      rfl
    · intro _
      rfl
    · intro x h
      injection h with h
      exact h.symm
    · intro h
      exact absurd rfl h

/-! ## The slot that `add_to_hashtable` writes -/

/-- The offset of the slot of bucket `b` in group `g` of the top-level table. -/
theorem hbucket_off_eq (g b : Nat) (hg : g < 128) (hb : b < 8) :
    hbucket_off (add_to_hashtable_group_start g) b = 312 + 64 * g + 8 * b := by
  have e1 : shl64 sizeof_tdb_off_t TDB_HASH_GROUP_BITS = 64 := by decide
  have e2 : offsetof_tdb_header_hashtable = 312 := rfl
  have e3 : (1 <<< TDB_HASH_GROUP_BITS) = 8 := by decide
  have e4 : sizeof_tdb_off_t = 8 := rfl
  unfold hbucket_off add_to_hashtable_group_start add64
  rw [e1, e2, e3, e4]
  omega

/-- C6: let `group` and `in_group` be the two fields that `add_to_hashtable`
takes from the hash `h` of the key, which are `h >> 57` and `(h >> 54) mod 8`,
and let slot `b` of the group be the 8 bytes at `312 + 64 * group + 8 * b`.
For a non-zero 64-bit offset `eoff`, if slot `(in_group + i) mod 8` is zero
for some `i < 8` and the slots `(in_group + j) mod 8` of all `j < i` are not,
`add_to_hashtable` returns, having written the encoded value
`bucket | eoff | (group << 57)` of the bucket `(in_group + i) mod 8`, a
non-zero 64-bit word, into that slot; that slot then reads as this value,
every byte outside it is unchanged, and so is every word that lies apart from
it. -/
theorem add_to_hashtable_first_empty (tdb : tdb_context) (eoff : Nat) (key : List Nat)
    (group used in_group used1 i : Nat)
    (hg : use_bits (tdb_hash tdb key) (TDB_TOPLEVEL_HASH_BITS - TDB_HASH_GROUP_BITS) 0
      = .ok (group, used))
    (hin : use_bits (tdb_hash tdb key) TDB_HASH_GROUP_BITS used = .ok (in_group, used1))
    (heoff : eoff ≠ 0) (hlt : eoff < 2 ^ 64) (hi : i < 8)
    (hfull : ∀ j, j < i →
      tdb_read_off tdb.map (312 + 64 * group + 8 * ((in_group + j) % 8)) ≠ 0)
    (hempty : tdb_read_off tdb.map (312 + 64 * group + 8 * ((in_group + i) % 8)) = 0) :
    group = tdb_hash tdb key >>> 57
      ∧ in_group = (tdb_hash tdb key >>> 54) % 8
      ∧ hbucket_off (add_to_hashtable_group_start group) ((in_group + i) % 8)
          = 312 + 64 * group + 8 * ((in_group + i) % 8)
      ∧ encode_offset eoff ((in_group + i) % 8) (tdb_hash tdb key)
          = .ok (((in_group + i) % 8) ||| eoff ||| shl64 group 57)
      ∧ (((in_group + i) % 8) ||| eoff ||| shl64 group 57) ≠ 0
      ∧ (((in_group + i) % 8) ||| eoff ||| shl64 group 57) < 2 ^ 64
      ∧ add_to_hashtable tdb eoff key
        = .ok { tdb with map := (tdb_write_off tdb.map
            (312 + 64 * group + 8 * ((in_group + i) % 8))
            (((in_group + i) % 8) ||| eoff ||| shl64 group 57)) }
      ∧ tdb_read_off
          (tdb_write_off tdb.map (312 + 64 * group + 8 * ((in_group + i) % 8))
            (((in_group + i) % 8) ||| eoff ||| shl64 group 57))
          (312 + 64 * group + 8 * ((in_group + i) % 8))
          = (((in_group + i) % 8) ||| eoff ||| shl64 group 57)
      ∧ (∀ a, ¬ (312 + 64 * group + 8 * ((in_group + i) % 8) ≤ a
            ∧ a < 312 + 64 * group + 8 * ((in_group + i) % 8) + 8) →
          tdb_write_off tdb.map (312 + 64 * group + 8 * ((in_group + i) % 8))
            (((in_group + i) % 8) ||| eoff ||| shl64 group 57) a = tdb.map a)
      ∧ (∀ b, b + 8 ≤ 312 + 64 * group + 8 * ((in_group + i) % 8)
            ∨ 312 + 64 * group + 8 * ((in_group + i) % 8) + 8 ≤ b →
          tdb_read_off
            (tdb_write_off tdb.map (312 + 64 * group + 8 * ((in_group + i) % 8))
              (((in_group + i) % 8) ||| eoff ||| shl64 group 57)) b
            = tdb_read_off tdb.map b) := by
  have hh : tdb_hash tdb key < 2 ^ 64 := by unfold tdb_hash; omega
  have hg0 := hg
  have hin0 := hin
  rw [use_bits_group] at hg
  injection hg with hg
  injection hg with hg1 hg2
  subst hg2
  rw [use_bits_in_group] at hin
  injection hin with hin
  injection hin with hin1 hin2
  have hgl : group < 128 := by omega
  have hslot : ∀ j, hbucket_off (add_to_hashtable_group_start group) ((in_group + j) % 8)
      = 312 + 64 * group + 8 * ((in_group + j) % 8) :=
    fun j => hbucket_off_eq group _ hgl (by omega)
  obtain ⟨v, h1, h2, h3, h4, h5, h6, h7⟩ :=
    probe_places_first_empty tdb eoff key group 7 in_group used1 i hg0 hin0 heoff hlt hi
      (fun j hj => by rw [hslot]; exact hfull j hj) (by rw [hslot]; exact hempty)
  have hv : v = ((in_group + i) % 8) ||| eoff ||| shl64 group 57 := by
    rw [encode_offset_ok, hg1] at h1
    injection h1 with h1
    exact h1.symm
  subst hv
  rw [hslot] at h4 h5 h6 h7
  exact ⟨by omega, hin1.symm, hslot i, h1, h2, h3, h4, h5, h6, h7⟩

/-- Witness of C6 on a table whose group 0 is taken but for bucket 2: the key
hashes to the home bucket 5 of group 0, the probe passes the taken buckets 5,
6, 7, 0 and 1 and writes the value 8506 into the slot of bucket 2, at 328. -/
theorem add_to_hashtable_first_empty_witness :
    add_to_hashtable (tdb_of_map group0_but_bucket2 (fun _ _ => 5 * 2 ^ 54)) 8504 []
      = .ok { tdb_of_map group0_but_bucket2 (fun _ _ => 5 * 2 ^ 54) with
          map := (tdb_write_off group0_but_bucket2 328 8506) } :=
  (add_to_hashtable_first_empty (tdb_of_map group0_but_bucket2 (fun _ _ => 5 * 2 ^ 54))
    8504 [] 0 7 5 10 5 (by rw [use_bits_group]; rfl) (by rw [use_bits_in_group]; rfl)
    (by decide) (by decide) (by decide)
    (fun j hj => by
      have h : j = 0 ∨ j = 1 ∨ j = 2 ∨ j = 3 ∨ j = 4 := by omega
      rcases h with h | h | h | h | h <;> subst h <;> decide)
    (by decide)).2.2.2.2.2.2.1
/-- C23: let `group` be the group number `h >> 57` that `add_to_hashtable`
takes from the hash of the key, and let slot `b` of the group be the 8 bytes
at `312 + 64 * group + 8 * b`. The function reaches `abort()` exactly when
all 8 slots of the group are non-zero, and then it has made no write;
otherwise it returns after one write, of the encoded value of a bucket into
the slot of that bucket in the group, which was zero, so that no slot outside
the group and no sub-table is touched. It stops in no other way. -/
theorem add_to_hashtable_never_expands (tdb : tdb_context) (eoff : Nat) (key : List Nat)
    (group used in_group used1 : Nat)
    (hg : use_bits (tdb_hash tdb key) (TDB_TOPLEVEL_HASH_BITS - TDB_HASH_GROUP_BITS) 0
      = .ok (group, used))
    (hin : use_bits (tdb_hash tdb key) TDB_HASH_GROUP_BITS used = .ok (in_group, used1)) :
    group = tdb_hash tdb key >>> 57
      ∧ (add_to_hashtable tdb eoff key = .error .aborted
        ↔ ∀ b, b < 8 → tdb_read_off tdb.map (312 + 64 * group + 8 * b) ≠ 0)
      ∧ (add_to_hashtable tdb eoff key = .error .aborted →
          add_to_hashtable_writes tdb eoff key = ([], .error .aborted))
      ∧ (∀ x, add_to_hashtable tdb eoff key = .error x → x = .aborted)
      ∧ (add_to_hashtable tdb eoff key ≠ .error .aborted →
          ∃ b v, b < 8
            ∧ tdb_read_off tdb.map (312 + 64 * group + 8 * b) = 0
            ∧ encode_offset eoff b (tdb_hash tdb key) = .ok v
            ∧ add_to_hashtable tdb eoff key
              = .ok { tdb with map := (tdb_write_off tdb.map
                  (312 + 64 * group + 8 * b) v) }
            ∧ add_to_hashtable_writes tdb eoff key
              = ([(312 + 64 * group + 8 * b, v)], .ok ())) := by
  have hh : tdb_hash tdb key < 2 ^ 64 := by unfold tdb_hash; omega
  have hg0 := hg
  rw [use_bits_group] at hg0
  injection hg0 with hg0
  injection hg0 with hg1 hg2
  have hgl : group < 128 := by omega
  have hslot : ∀ b, b < 8 → hbucket_off (add_to_hashtable_group_start group) b
      = 312 + 64 * group + 8 * b :=
    fun b hb => hbucket_off_eq group b hgl hb
  obtain ⟨h1, h2, h3, h4⟩ := probe_stops tdb eoff key group used in_group used1 hg hin
  refine ⟨by omega, ⟨?_, ?_⟩, h2, h3, ?_⟩
  · intro ha b hb
    rw [← hslot b hb]
    exact h1.1 ha b hb
  · intro hall
    exact h1.2 (fun b hb => by rw [hslot b hb]; exact hall b hb)
  · intro hna
    obtain ⟨b, v, hb, hz, he, hadd, hw⟩ := h4 hna
    rw [hslot b hb] at hz hadd hw
    exact ⟨b, v, hb, hz, he, hadd, hw⟩

/-- Witness of C23 on two tables, for a key of home bucket 5 of group 0. In
the table whose group 0 is full, the function reaches `abort()` and has made
no write. In the table in which bucket 2 of group 0 is empty, it makes one
write, into a slot of group 0 that was zero. -/
theorem add_to_hashtable_never_expands_witness :
    (add_to_hashtable (tdb_of_map group0_full (fun _ _ => 5 * 2 ^ 54)) 8504 []
          = .error .aborted
        ∧ add_to_hashtable_writes (tdb_of_map group0_full (fun _ _ => 5 * 2 ^ 54)) 8504 []
          = ([], .error .aborted))
      ∧ ∃ b v, b < 8
          ∧ tdb_read_off (tdb_of_map group0_but_bucket2 (fun _ _ => 5 * 2 ^ 54)).map
              (312 + 64 * 0 + 8 * b) = 0
          ∧ add_to_hashtable_writes (tdb_of_map group0_but_bucket2 (fun _ _ => 5 * 2 ^ 54))
              8504 [] = ([(312 + 64 * 0 + 8 * b, v)], .ok ()) :=
  have hF := add_to_hashtable_never_expands
    (tdb_of_map group0_full (fun _ _ => 5 * 2 ^ 54)) 8504 [] 0 7 5 10
    (by rw [use_bits_group]; rfl) (by rw [use_bits_in_group]; rfl)
  have hT := add_to_hashtable_never_expands
    (tdb_of_map group0_but_bucket2 (fun _ _ => 5 * 2 ^ 54)) 8504 [] 0 7 5 10
    (by rw [use_bits_group]; rfl) (by rw [use_bits_in_group]; rfl)
  have hfull : add_to_hashtable (tdb_of_map group0_full (fun _ _ => 5 * 2 ^ 54)) 8504 []
      = .error .aborted :=
    hF.2.1.2 (fun b hb => by
      have h : b = 0 ∨ b = 1 ∨ b = 2 ∨ b = 3 ∨ b = 4 ∨ b = 5 ∨ b = 6 ∨ b = 7 := by omega
      rcases h with h | h | h | h | h | h | h | h <;> subst h <;> decide)
  ⟨⟨hfull, hF.2.2.1 hfull⟩,
    match hT.2.2.2.2 (fun h => hT.2.1.1 h 2 (by decide) (by decide)) with
    | ⟨b, v, h1, h2, _, _, h5⟩ => ⟨b, v, h1, h2, h5⟩⟩
/-! ## No record below the size of a free record -/

end Tdb2
